import Mathlib

/-!
Verification of the orthogonal connector-routing engine of
`src/tools/generate-paths.py` (side selection, direct elbow router,
obstacle-aware grid router with informed search, collinear compression,
path serialization).  Coordinates are modelled exactly as rationals; the
Python `round` (half-to-even) used for serialization is modelled by
`pyRound`.  Fallible code (the `raise ValueError` branch of `_anchor`)
is modelled with `Option`; the possibly non-terminating search loop is
modelled with explicit fuel (`none` = fuel exhausted, an outcome the
source cannot exhibit since its graph is finite).
-/

namespace GenPaths

/-- A point of the shared plane, `(x, y)`. -/
abbrev Pt : Type := ℚ × ℚ

/-- Axis-aligned rectangle `(x, y, width, height)`, from `class Rect`. -/
structure Rect where
  x : ℚ
  y : ℚ
  w : ℚ
  h : ℚ
  deriving DecidableEq

/-- `Rect.cx` property. -/
def Rect.cx (r : Rect) : ℚ := r.x + r.w / 2

/-- `Rect.cy` property. -/
def Rect.cy (r : Rect) : ℚ := r.y + r.h / 2

/-- `Rect.left` property. -/
def Rect.left (r : Rect) : ℚ := r.x

/-- `Rect.right` property. -/
def Rect.right (r : Rect) : ℚ := r.x + r.w

/-- `Rect.top` property. -/
def Rect.top (r : Rect) : ℚ := r.y

/-- `Rect.bottom` property. -/
def Rect.bottom (r : Rect) : ℚ := r.y + r.h

/-- Python `round` on an exact rational value: round half to even. -/
def pyRound (v : ℚ) : ℤ :=
  let f : ℤ := ⌊v⌋
  let frac : ℚ := v - f
  if frac < 1/2 then f
  else if 1/2 < frac then f + 1
  else if f % 2 = 0 then f else f + 1

/-- `_round_svg(v) = int(round(v))`. -/
def roundSvg (v : ℚ) : ℤ := pyRound v

/-- `_anchor`: midpoint of the chosen side; `none` models the
`raise ValueError("unknown side")` branch. -/
def anchor (rect : Rect) (side : String) : Option Pt :=
  if side = "left" then some (rect.left, rect.cy)
  else if side = "right" then some (rect.right, rect.cy)
  else if side = "top" then some (rect.cx, rect.top)
  else if side = "bottom" then some (rect.cx, rect.bottom)
  else none

/-- `_pick_sides`: horizontal dominance if `|dx| >= |dy|`. -/
def pickSides (src dst : Rect) : String × String :=
  let dx := dst.cx - src.cx
  let dy := dst.cy - src.cy
  if |dx| ≥ |dy| then
    if dx ≥ 0 then ("right", "left") else ("left", "right")
  else
    if dy ≥ 0 then ("bottom", "top") else ("top", "bottom")

/-- The point list built by `_orthogonal_path` before serialization
(`none` models the unreachable unknown-side error). -/
def orthPoints (src dst : Rect) (margin : ℚ) : Option (List Pt) :=
  let sides := pickSides src dst
  let src_side := sides.1
  let dst_side := sides.2
  match anchor src src_side, anchor dst dst_side with
  | some (sx, sy), some (ex, ey) =>
    some (
      if (src_side = "left" ∨ src_side = "right") ∧
         (dst_side = "left" ∨ dst_side = "right") then
        if roundSvg sy = roundSvg ey then
          [(sx, sy), (ex, ey)]
        else
          let mid_x := if dst_side = "left" then min (ex - margin) ((sx + ex) / 2)
                       else max (ex + margin) ((sx + ex) / 2)
          [(sx, sy), (mid_x, sy), (mid_x, ey), (ex, ey)]
      else if (src_side = "top" ∨ src_side = "bottom") ∧
              (dst_side = "top" ∨ dst_side = "bottom") then
        if roundSvg sx = roundSvg ex then
          [(sx, sy), (ex, ey)]
        else
          let mid_y := if dst_side = "top" then min (ey - margin) ((sy + ey) / 2)
                       else max (ey + margin) ((sy + ey) / 2)
          [(sx, sy), (sx, mid_y), (ex, mid_y), (ex, ey)]
      else
        if src_side = "left" ∨ src_side = "right" then
          [(sx, sy), (ex, sy), (ex, ey)]
        else
          [(sx, sy), (sx, ey), (ex, ey)])
  | _, _ => none

/-- `" ".join(parts)`. -/
def joinSpace : List String → String
  | [] => ""
  | [s] => s
  | s :: rest => s ++ " " ++ joinSpace rest

/-- Serialization of a point sequence into `M<x> <y> L<x> <y> ...`
(shared by `_orthogonal_path` and `_route_avoiding_tables`). -/
def renderPath (points : List Pt) : String :=
  match points with
  | [] => ""
  | p :: rest =>
    joinSpace (("M" ++ toString (roundSvg p.1) ++ " " ++ toString (roundSvg p.2)) ::
      rest.map (fun q => "L" ++ toString (roundSvg q.1) ++ " " ++ toString (roundSvg q.2)))

/-- `_orthogonal_path`: the direct router, returning the serialized path. -/
def orthogonalPath (src dst : Rect) (margin : ℚ) : Option String :=
  (orthPoints src dst margin).map renderPath

/-- `_expand`. -/
def expand (rect : Rect) (pad : ℚ) : Rect :=
  ⟨rect.x - pad, rect.y - pad, rect.w + pad * 2, rect.h + pad * 2⟩

/-- `_segment_clear`: a segment is clear when it is axis-aligned and its
closed extent does not strictly overlap any obstacle's open interior on
the cross axis. -/
def segmentClear (a b : Pt) (obstacles : List Rect) : Bool :=
  if a.1 ≠ b.1 ∧ a.2 ≠ b.2 then false
  else if a.1 = b.1 then
    obstacles.all fun r =>
      if r.left < a.1 ∧ a.1 < r.right then
        decide (¬ (max (min a.2 b.2) r.top < min (max a.2 b.2) r.bottom))
      else true
  else
    obstacles.all fun r =>
      if r.top < a.2 ∧ a.2 < r.bottom then
        decide (¬ (max (min a.1 b.1) r.left < min (max a.1 b.1) r.right))
      else true

/-- `_manhattan`. -/
def manhattan (a b : Pt) : ℚ := |a.1 - b.1| + |a.2 - b.2|

/-- A frontier entry `(f, node)` as pushed onto the `heapq` heap. -/
abbrev Entry : Type := ℚ × Pt

/-- Python tuple comparison on `(f, (x, y))`: lexicographic. -/
def entryLe (a b : Entry) : Prop :=
  a.1 < b.1 ∨ (a.1 = b.1 ∧ (a.2.1 < b.2.1 ∨ (a.2.1 = b.2.1 ∧ a.2.2 ≤ b.2.2)))

instance (a b : Entry) : Decidable (entryLe a b) :=
  inferInstanceAs (Decidable
    (a.1 < b.1 ∨ (a.1 = b.1 ∧ (a.2.1 < b.2.1 ∨ (a.2.1 = b.2.1 ∧ a.2.2 ≤ b.2.2)))))

/-- The least entry of the heap under tuple order; `heapq.heappop` returns it. -/
def minEntry : List Entry → Option Entry
  | [] => none
  | e :: rest => some (rest.foldl (fun m v => if entryLe v m ∧ ¬ entryLe m v then v else m) e)

/-- Remove the first occurrence of an entry. -/
def eraseEntry : List Entry → Entry → List Entry
  | [], _ => []
  | e :: rest, m => if e = m then rest else e :: eraseEntry rest m

/-- `heapq.heappop` on the frontier: returns the least entry (Python's
binary heap orders entries by full tuple comparison) and the heap
without it. -/
def heappop (heap : List Entry) : Option (Entry × List Entry) :=
  match minEntry heap with
  | none => none
  | some m => some (m, eraseEntry heap m)

/-- Association-list lookup with Python-`dict` overwrite semantics (the
most recent binding of a key wins). -/
def lookupP {β : Type} : List (Pt × β) → Pt → Option β
  | [], _ => none
  | (k, v) :: rest, q => if k = q then some v else lookupP rest q

/-- Mutable state of the `_a_star` loop. -/
structure SState where
  heap : List Entry
  cameFrom : List (Pt × Pt)
  gScore : List (Pt × ℚ)
  inOpen : List Pt

/-- One relaxation of the edge `current -> nxt` in `_a_star`'s inner loop.
`g_score[current]` is always present when `current` came off the heap, so
the `getD 0` default is never taken on reachable states. -/
def relax (goal current : Pt) (st : SState) (nxt : Pt) : SState :=
  let gcur := (lookupP st.gScore current).getD 0
  let tentative := gcur + manhattan current nxt
  let better := match lookupP st.gScore nxt with
    | none => true
    | some gn => decide (tentative < gn)
  if better then
    let cameFrom' := (nxt, current) :: st.cameFrom
    let gScore' := (nxt, tentative) :: st.gScore
    if nxt ∈ st.inOpen then
      { st with cameFrom := cameFrom', gScore := gScore' }
    else
      { heap := st.heap ++ [(tentative + manhattan nxt goal, nxt)],
        cameFrom := cameFrom', gScore := gScore', inOpen := nxt :: st.inOpen }
  else st

/-- The `while current in came_from` reconstruction, accumulator form:
the returned list is the reversed parent chain, exactly
`path.reverse()` of the source.  The fuel bound `came_from.length + 1`
is reached only on cyclic parent maps, which reachable search states
never produce. -/
def reconstruct (cameFrom : List (Pt × Pt)) : ℕ → Pt → List Pt → List Pt
  | 0, current, acc => current :: acc
  | fuel + 1, current, acc =>
    match lookupP cameFrom current with
    | none => current :: acc
    | some prev => reconstruct cameFrom fuel prev (current :: acc)

/-- The `while open_heap` loop of `_a_star`: pop the least entry, drop it
from the membership tracker, stop at the goal, otherwise relax all
neighbors.  Outer `none` = fuel ran out. -/
def aStarLoop (edges : Pt → List Pt) (goal : Pt) :
    ℕ → SState → Option (Option (List Pt))
  | 0, _ => none
  | fuel + 1, st =>
    match heappop st.heap with
    | none => some none
    | some (e, heap') =>
      if e.2 = goal then
        some (some (reconstruct st.cameFrom (st.cameFrom.length + 1) e.2 []))
      else
        aStarLoop edges goal fuel
          ((edges e.2).foldl (relax goal e.2)
            { st with heap := heap', inOpen := st.inOpen.filter (fun p => p ≠ e.2) })

/-- `_a_star`.  The `nodes` argument is unused, as in the source.
Result: `none` = fuel exhausted, `some none` = frontier exhausted with
the goal unreached (Python returns `None`), `some (some p)` = path. -/
def aStar (fuel : ℕ) (start goal : Pt) (nodes : List Pt) (edges : Pt → List Pt) :
    Option (Option (List Pt)) :=
  aStarLoop edges goal fuel
    { heap := [(manhattan start goal, start)], cameFrom := [],
      gScore := [(start, 0)], inOpen := [start] }

/-- The skip test of `_compress_collinear`: the previous kept point, the
candidate and its successor share an x- or a y-coordinate. -/
def collinear3 (a b c : Pt) : Prop :=
  (a.1 = b.1 ∧ b.1 = c.1) ∨ (a.2 = b.2 ∧ b.2 = c.2)

instance (a b c : Pt) : Decidable (collinear3 a b c) :=
  inferInstanceAs (Decidable ((a.1 = b.1 ∧ b.1 = c.1) ∨ (a.2 = b.2 ∧ b.2 = c.2)))

/-- The left-to-right pass of `_compress_collinear`: `prev` is `out[-1]`,
the final element is always kept. -/
def compressGo (prev : Pt) : List Pt → List Pt
  | [] => []
  | [last] => [last]
  | p :: q :: rest =>
    if collinear3 prev p q then compressGo prev (q :: rest)
    else p :: compressGo p (q :: rest)

/-- `_compress_collinear`. -/
def compressCollinear (points : List Pt) : List Pt :=
  match points with
  | p0 :: p1 :: p2 :: rest => p0 :: compressGo p0 (p1 :: p2 :: rest)
  | _ => points

/-- Insert into a sorted list (ascending). -/
def insertSorted (v : ℚ) : List ℚ → List ℚ
  | [] => [v]
  | x :: xs => if v ≤ x then v :: x :: xs else x :: insertSorted v xs

/-- Drop duplicate values (which of the equal occurrences survives is
irrelevant: the result is sorted afterwards). -/
def dedupQ : List ℚ → List ℚ
  | [] => []
  | x :: xs => if x ∈ xs then dedupQ xs else x :: dedupQ xs

/-- `sorted(<set>)`: the distinct collected values in ascending order. -/
def sortedDedup (l : List ℚ) : List ℚ := (dedupQ l).foldr insertSorted []

/-- The obstacle list of `_route_avoiding_tables`: every rectangle except
the two endpoints, expanded by `pad`; `all_table_rects` is an insertion
-ordered association list like the Python `dict`. -/
def routeObstacles (all_table_rects : List (String × Rect)) (src_id dst_id : String)
    (pad : ℚ) : List Rect :=
  (all_table_rects.filter fun tr => tr.1 ≠ src_id ∧ tr.1 ≠ dst_id).map
    fun tr => expand tr.2 pad

/-- The candidate x-lines (`xs_list`). -/
def routeXs (obstacles : List Rect) (all_table_rects : List (String × Rect))
    (start goal : Pt) (margin : ℚ) : List ℚ :=
  sortedDedup ([start.1, goal.1] ++
    (obstacles.flatMap fun r => [r.left - margin, r.left, r.right, r.right + margin]) ++
    (all_table_rects.flatMap fun tr => [tr.2.left, tr.2.right]))

/-- The candidate y-lines (`ys_list`). -/
def routeYs (obstacles : List Rect) (all_table_rects : List (String × Rect))
    (start goal : Pt) (margin : ℚ) : List ℚ :=
  sortedDedup ([start.2, goal.2] ++
    (obstacles.flatMap fun r => [r.top - margin, r.top, r.bottom, r.bottom + margin]) ++
    (all_table_rects.flatMap fun tr => [tr.2.top, tr.2.bottom]))

/-- `blocked(x, y)`: strictly inside some padded obstacle. -/
def blocked (obstacles : List Rect) (p : Pt) : Bool :=
  obstacles.any fun r =>
    decide (r.left < p.1 ∧ p.1 < r.right ∧ r.top < p.2 ∧ p.2 < r.bottom)

/-- The unblocked grid points, in the double-loop order of the source. -/
def routeNodes (xs ys : List ℚ) (obstacles : List Rect) : List Pt :=
  xs.flatMap fun x => (ys.filter fun y => ¬ blocked obstacles (x, y)).map fun y => (x, y)

/-- Membership in `node_set` (the grid points plus `start` and `goal`). -/
def isNode (xs ys : List ℚ) (obstacles : List Rect) (start goal : Pt) (p : Pt) : Bool :=
  (p.1 ∈ xs ∧ p.2 ∈ ys ∧ ¬ blocked obstacles p) ∨ p = start ∨ p = goal

/-- Column neighbors of a node: its immediate predecessor and successor
among the `node_set` members sharing its x, kept when the connecting
segment is clear — exactly the adjacency the `by_x` pass builds. -/
def colNbrs (xs ys : List ℚ) (obstacles : List Rect) (start goal : Pt) (n : Pt) :
    List Pt :=
  let col := ys.filter fun y => isNode xs ys obstacles start goal (n.1, y)
  (match (col.filter fun y => y < n.2).getLast? with
   | some y' => if segmentClear (n.1, y') n obstacles then [(n.1, y')] else []
   | none => []) ++
  (match (col.filter fun y => n.2 < y).head? with
   | some y' => if segmentClear n (n.1, y') obstacles then [(n.1, y')] else []
   | none => [])

/-- Row neighbors, from the `by_y` pass. -/
def rowNbrs (xs ys : List ℚ) (obstacles : List Rect) (start goal : Pt) (n : Pt) :
    List Pt :=
  let row := xs.filter fun x => isNode xs ys obstacles start goal (x, n.2)
  (match (row.filter fun x => x < n.1).getLast? with
   | some x' => if segmentClear (x', n.2) n obstacles then [(x', n.2)] else []
   | none => []) ++
  (match (row.filter fun x => n.1 < x).head? with
   | some x' => if segmentClear n (x', n.2) obstacles then [(x', n.2)] else []
   | none => [])

/-- The adjacency function handed to `_a_star` (`edges.get(current, [])`
of the built `edges` dict: column neighbors first, then row neighbors). -/
def routeEdges (xs ys : List ℚ) (obstacles : List Rect) (start goal : Pt) (n : Pt) :
    List Pt :=
  if isNode xs ys obstacles start goal n then
    colNbrs xs ys obstacles start goal n ++ rowNbrs xs ys obstacles start goal n
  else []

/-- The body of `_route_avoiding_tables` after the two anchors are
resolved.  The `some [] -> fallback` arm mirrors Python's `if not path`
(falsy for both `None` and the empty list). -/
def routeCore (fuel : ℕ) (src_rect dst_rect : Rect)
    (all_table_rects : List (String × Rect)) (src_id dst_id : String)
    (pad margin : ℚ) (start goal : Pt) : Option String :=
  let obstacles := routeObstacles all_table_rects src_id dst_id pad
  let xs := routeXs obstacles all_table_rects start goal margin
  let ys := routeYs obstacles all_table_rects start goal margin
  match aStar fuel start goal (routeNodes xs ys obstacles)
      (routeEdges xs ys obstacles start goal) with
  | none => none
  | some none => orthogonalPath src_rect dst_rect margin
  | some (some []) => orthogonalPath src_rect dst_rect margin
  | some (some (p :: rest)) => some (renderPath (compressCollinear (p :: rest)))

/-- `_route_avoiding_tables`, with explicit search fuel. -/
def routeAvoidingTables (fuel : ℕ) (src_rect dst_rect : Rect)
    (all_table_rects : List (String × Rect)) (src_id dst_id : String)
    (pad margin : ℚ) : Option String :=
  match anchor src_rect (pickSides src_rect dst_rect).1,
        anchor dst_rect (pickSides src_rect dst_rect).2 with
  | some start, some goal =>
    routeCore fuel src_rect dst_rect all_table_rects src_id dst_id pad margin start goal
  | _, _ => none

/-- Number of interior points at which the polyline changes direction. -/
def bendCount : List Pt → ℕ
  | a :: b :: c :: rest =>
    (if collinear3 a b c then 0 else 1) + bendCount (b :: c :: rest)
  | _ => 0

/-- Two points share an x- or a y-coordinate (axis-aligned step). -/
def shareCoord (a b : Pt) : Prop := a.1 = b.1 ∨ a.2 = b.2

/-- Two points share an x- or a y-coordinate after rounding. -/
def roundedShare (a b : Pt) : Prop :=
  roundSvg a.1 = roundSvg b.1 ∨ roundSvg a.2 = roundSvg b.2

/-- Two points share exactly one coordinate: an axis-aligned step of
positive length. -/
def shareExactlyOne (a b : Pt) : Prop :=
  (a.1 = b.1 ∧ a.2 ≠ b.2) ∨ (a.1 ≠ b.1 ∧ a.2 = b.2)

instance (a b : Pt) : Decidable (shareCoord a b) :=
  inferInstanceAs (Decidable (a.1 = b.1 ∨ a.2 = b.2))

instance (a b : Pt) : Decidable (roundedShare a b) :=
  inferInstanceAs (Decidable (roundSvg a.1 = roundSvg b.1 ∨ roundSvg a.2 = roundSvg b.2))

instance (a b : Pt) : Decidable (shareExactlyOne a b) :=
  inferInstanceAs (Decidable ((a.1 = b.1 ∧ a.2 ≠ b.2) ∨ (a.1 ≠ b.1 ∧ a.2 = b.2)))

/-- A point of the closed segment from `a` to `b`. -/
def onSegment (a b p : Pt) : Prop :=
  ∃ t : ℚ, 0 ≤ t ∧ t ≤ 1 ∧ p.1 = a.1 + t * (b.1 - a.1) ∧ p.2 = a.2 + t * (b.2 - a.2)

/-- Strictly inside the open interior of a rectangle. -/
def insideOpen (p : Pt) (r : Rect) : Prop :=
  r.left < p.1 ∧ p.1 < r.right ∧ r.top < p.2 ∧ p.2 < r.bottom

/-- Every point of the segment from `a` to `b` avoids the open interior
of every obstacle. -/
def segSafe (obstacles : List Rect) (a b : Pt) : Prop :=
  ∀ p : Pt, onSegment a b p → ∀ r ∈ obstacles, ¬ insideOpen p r

/-- No three consecutive points share an x- or a y-coordinate. -/
def noTriple : List Pt → Prop
  | a :: b :: c :: rest => ¬ collinear3 a b c ∧ noTriple (b :: c :: rest)
  | _ => True

/-- `u` reaches `start` through the parent map in at most `n` steps. -/
def reachesIn (cf : List (Pt × Pt)) (start : Pt) : ℕ → Pt → Prop
  | 0, u => u = start
  | n + 1, u => u = start ∨ ∃ v, lookupP cf u = some v ∧ reachesIn cf start n v

/-- Invariant of the reachable states of the `_a_star` loop: `g` scores
are nonnegative with `g(start) = 0` fixed, the start never acquires a
parent, every parent link is a graph edge that strictly decreases the
`g` score, parents are themselves `start` or parented, and every frontier
node has a `g` score and a parent chain. -/
structure AInv (edges : Pt → List Pt) (start : Pt) (st : SState) : Prop where
  g_start : lookupP st.gScore start = some 0
  g_nonneg : ∀ k g, lookupP st.gScore k = some g → 0 ≤ g
  start_root : lookupP st.cameFrom start = none
  parent_edge : ∀ k v, lookupP st.cameFrom k = some v → k ∈ edges v
  parent_g : ∀ k v, lookupP st.cameFrom k = some v →
    ∃ gk gv, lookupP st.gScore k = some gk ∧ lookupP st.gScore v = some gv ∧ gv < gk
  parent_closed : ∀ k v, lookupP st.cameFrom k = some v →
    v = start ∨ (lookupP st.cameFrom v).isSome
  heap_ok : ∀ e ∈ st.heap,
    (e.2 = start ∨ (lookupP st.cameFrom e.2).isSome) ∧ (lookupP st.gScore e.2).isSome

/-! Concrete inputs used by witnesses and counterexamples. -/

/-- Two rectangles with an open corridor between them. -/
def demoRectsOpen : List (String × Rect) :=
  [("s", ⟨0, 0, 10, 10⟩), ("d", ⟨100, 0, 10, 10⟩)]

/-- As `demoRectsOpen` plus a third rectangle whose padded expansion
swallows the start anchor, so no obstacle-avoiding path exists. -/
def demoRectsBlocked : List (String × Rect) :=
  [("s", ⟨0, 0, 10, 10⟩), ("d", ⟨100, 0, 10, 10⟩), ("b", ⟨8, 2, 20, 6⟩)]

/-- A diamond graph: the start's neighbor list pushes `(1, 0)` before
`(0, 1)`, both at the same f-value, and both reach the goal `(1, 1)`. -/
def tieEdges : Pt → List Pt := fun p =>
  if p = ((0 : ℚ), (0 : ℚ)) then [(1, 0), (0, 1)]
  else if p = (1, 0) then [(1, 1)]
  else if p = (0, 1) then [(1, 1)]
  else []

/-- A two-node graph with a single horizontal edge. -/
def lineEdges : Pt → List Pt := fun p =>
  if p = ((0 : ℚ), (0 : ℚ)) then [((9 : ℚ), 0)] else []

/-- The input showing that one-pass compression is not idempotent. -/
def retraceList : List Pt := [(0, 0), (1, 0), (1, 1), (1, 0), (3, 0), (3, 1)]

end GenPaths

namespace GenPaths

/-! Helper lemmas. -/

theorem bendCount_cons_le (a b : Pt) (l : List Pt) : bendCount (a :: b :: l) ≤ l.length := by
  induction l generalizing a b with
  | nil => simp [bendCount]
  | cons c r ih =>
    have h := ih b c
    by_cases hc : collinear3 a b c <;> simp [bendCount, hc] <;> omega

theorem pickSides_cases (src dst : Rect) :
    pickSides src dst = ("right", "left") ∨ pickSides src dst = ("left", "right") ∨
    pickSides src dst = ("bottom", "top") ∨ pickSides src dst = ("top", "bottom") := by
  unfold pickSides
  dsimp only
  split_ifs <;> simp

theorem anchor_left (r : Rect) : anchor r "left" = some (r.left, r.cy) := rfl

theorem anchor_right (r : Rect) : anchor r "right" = some (r.right, r.cy) := rfl

theorem anchor_top (r : Rect) : anchor r "top" = some (r.cx, r.top) := rfl

theorem anchor_bottom (r : Rect) : anchor r "bottom" = some (r.cx, r.bottom) := rfl

theorem orthPoints_rl (src dst : Rect) (margin : ℚ)
    (h : pickSides src dst = ("right", "left")) :
    orthPoints src dst margin = some (
      if roundSvg src.cy = roundSvg dst.cy then
        [(src.right, src.cy), (dst.left, dst.cy)]
      else
        [(src.right, src.cy),
         (min (dst.left - margin) ((src.right + dst.left) / 2), src.cy),
         (min (dst.left - margin) ((src.right + dst.left) / 2), dst.cy),
         (dst.left, dst.cy)]) := by
  unfold orthPoints
  rw [h]
  rfl

theorem orthPoints_lr (src dst : Rect) (margin : ℚ)
    (h : pickSides src dst = ("left", "right")) :
    orthPoints src dst margin = some (
      if roundSvg src.cy = roundSvg dst.cy then
        [(src.left, src.cy), (dst.right, dst.cy)]
      else
        [(src.left, src.cy),
         (max (dst.right + margin) ((src.left + dst.right) / 2), src.cy),
         (max (dst.right + margin) ((src.left + dst.right) / 2), dst.cy),
         (dst.right, dst.cy)]) := by
  unfold orthPoints
  rw [h]
  rfl

theorem orthPoints_bt (src dst : Rect) (margin : ℚ)
    (h : pickSides src dst = ("bottom", "top")) :
    orthPoints src dst margin = some (
      if roundSvg src.cx = roundSvg dst.cx then
        [(src.cx, src.bottom), (dst.cx, dst.top)]
      else
        [(src.cx, src.bottom),
         (src.cx, min (dst.top - margin) ((src.bottom + dst.top) / 2)),
         (dst.cx, min (dst.top - margin) ((src.bottom + dst.top) / 2)),
         (dst.cx, dst.top)]) := by
  unfold orthPoints
  rw [h]
  rfl

theorem orthPoints_tb (src dst : Rect) (margin : ℚ)
    (h : pickSides src dst = ("top", "bottom")) :
    orthPoints src dst margin = some (
      if roundSvg src.cx = roundSvg dst.cx then
        [(src.cx, src.top), (dst.cx, dst.bottom)]
      else
        [(src.cx, src.top),
         (src.cx, max (dst.bottom + margin) ((src.top + dst.bottom) / 2)),
         (dst.cx, max (dst.bottom + margin) ((src.top + dst.bottom) / 2)),
         (dst.cx, dst.bottom)]) := by
  unfold orthPoints
  rw [h]
  rfl

/-- **C3.** As stated the claim is false (see `c3_counterexample`): the
`Z`-elbow of the direct router has two interior direction changes.  The
amended bound: the direct router always returns a path with at most two
intermediate bends (at most four points). -/
theorem c3_at_most_two_bends (src dst : Rect) (margin : ℚ) (pts : List Pt)
    (h : orthPoints src dst margin = some pts) : bendCount pts ≤ 2 := by
  rcases pickSides_cases src dst with hp | hp | hp | hp <;>
    [rw [orthPoints_rl src dst margin hp] at h;
     rw [orthPoints_lr src dst margin hp] at h;
     rw [orthPoints_bt src dst margin hp] at h;
     rw [orthPoints_tb src dst margin hp] at h] <;>
    rw [Option.some_inj] at h <;>
    split at h <;> subst h <;>
    exact le_trans (bendCount_cons_le _ _ _) (by simp)

/-- **C3 counterexample.** With `src = (0,0,10,10)`, `dst = (100,20,10,10)`
and the default margin, the direct router returns the four-point `Z` path
`(10,5) (55,5) (55,25) (100,25)`, which has two intermediate bends, not
at most one. -/
theorem c3_counterexample :
    orthPoints ⟨0, 0, 10, 10⟩ ⟨100, 20, 10, 10⟩ 14 =
      some [((10 : ℚ), 5), (55, 5), (55, 25), (100, 25)] ∧
    bendCount [((10 : ℚ), 5), (55, 5), (55, 25), (100, 25)] = 2 := by
  constructor <;> with_unfolding_all decide

/-- **C3 witness.** The amended bound applied to that same input. -/
theorem c3_witness :
    bendCount [((10 : ℚ), 5), (55, 5), (55, 25), (100, 25)] ≤ 2 :=
  c3_at_most_two_bends ⟨0, 0, 10, 10⟩ ⟨100, 20, 10, 10⟩ 14 _
    (by with_unfolding_all decide)

/-- **C8.** Routing is deterministic: the routing function is a pure
function of its arguments, so two calls on the same source and
destination rectangles, rectangle collection, endpoint ids, padding,
margin (and search fuel) return identical output strings.  The
order-dependent Python constructs it compiles away from (set and dict
iteration) are modelled by the explicit sorted lists the output is
computed from. -/
theorem c8_deterministic (fuel : ℕ) (src_rect dst_rect : Rect)
    (all_table_rects : List (String × Rect)) (src_id dst_id : String) (pad margin : ℚ) :
    routeAvoidingTables fuel src_rect dst_rect all_table_rects src_id dst_id pad margin =
    routeAvoidingTables fuel src_rect dst_rect all_table_rects src_id dst_id pad margin :=
  rfl

theorem orthogonalPath_isSome (src dst : Rect) (margin : ℚ) :
    (orthogonalPath src dst margin).isSome := by
  rcases pickSides_cases src dst with hp | hp | hp | hp <;>
    [rw [orthogonalPath, orthPoints_rl src dst margin hp];
     rw [orthogonalPath, orthPoints_lr src dst margin hp];
     rw [orthogonalPath, orthPoints_bt src dst margin hp];
     rw [orthogonalPath, orthPoints_tb src dst margin hp]] <;> rfl

/-- **C9.** The side selector only ever returns sides in
`{left, right, top, bottom}`, so the unknown-side error branch of the
anchor function can never fire: both anchors of the selected sides exist
for every pair of rectangles, the direct router never signals the
invalid-side error, and the grid router always resolves its anchors and
proceeds to its core (its error arm is likewise unreachable). -/
theorem c9_side_error_unreachable (src dst : Rect) (margin : ℚ) :
    (anchor src (pickSides src dst).1).isSome ∧
    (anchor dst (pickSides src dst).2).isSome ∧
    (orthogonalPath src dst margin).isSome ∧
    (∀ (fuel : ℕ) (all_table_rects : List (String × Rect)) (src_id dst_id : String)
        (pad : ℚ), ∃ s g : Pt,
        anchor src (pickSides src dst).1 = some s ∧
        anchor dst (pickSides src dst).2 = some g ∧
        routeAvoidingTables fuel src dst all_table_rects src_id dst_id pad margin =
          routeCore fuel src dst all_table_rects src_id dst_id pad margin s g) := by
  have h1 : (anchor src (pickSides src dst).1).isSome := by
    rcases pickSides_cases src dst with hp | hp | hp | hp <;> rw [hp] <;> rfl
  have h2 : (anchor dst (pickSides src dst).2).isSome := by
    rcases pickSides_cases src dst with hp | hp | hp | hp <;> rw [hp] <;> rfl
  refine ⟨h1, h2, orthogonalPath_isSome src dst margin, ?_⟩
  intro fuel all_table_rects src_id dst_id pad
  obtain ⟨s, hs⟩ := Option.isSome_iff_exists.mp h1
  obtain ⟨g, hg⟩ := Option.isSome_iff_exists.mp h2
  refine ⟨s, g, hs, hg, ?_⟩
  unfold routeAvoidingTables
  rw [hs, hg]

/-! Compression lemmas. -/

theorem compressGo_sublist (a : Pt) (l : List Pt) : (compressGo a l).Sublist l := by
  induction a, l using compressGo.induct with
  | case1 a => simp [compressGo]
  | case2 a last => simp [compressGo]
  | case3 a p q rest hc ih =>
    rw [compressGo, if_pos hc]
    exact ih.cons _
  | case4 a p q rest hc ih =>
    rw [compressGo, if_neg hc]
    exact ih.cons₂ _

theorem compressGo_ne_nil (a : Pt) (l : List Pt) (h : l ≠ []) : compressGo a l ≠ [] := by
  induction a, l using compressGo.induct with
  | case1 a => exact absurd rfl h
  | case2 a last => simp [compressGo]
  | case3 a p q rest hc ih =>
    rw [compressGo, if_pos hc]
    exact ih (by simp)
  | case4 a p q rest hc ih =>
    rw [compressGo, if_neg hc]
    simp

theorem compressGo_getLast (a : Pt) (l : List Pt) (h : l ≠ []) :
    (compressGo a l).getLast? = l.getLast? := by
  induction a, l using compressGo.induct with
  | case1 a => exact absurd rfl h
  | case2 a last => rfl
  | case3 a p q rest hc ih =>
    rw [compressGo, if_pos hc, List.getLast?_cons_cons]
    exact ih (by simp)
  | case4 a p q rest hc ih =>
    obtain ⟨x, xs, hx⟩ := List.exists_cons_of_ne_nil (compressGo_ne_nil p (q :: rest) (by simp))
    rw [compressGo, if_neg hc, hx, List.getLast?_cons_cons, ← hx, ih (by simp),
      List.getLast?_cons_cons]

theorem compressGo_chain {R : Pt → Pt → Prop}
    (merge : ∀ a p q, collinear3 a p q → R a p → R p q → R a q) :
    ∀ (a : Pt) (l : List Pt), List.Chain R a l → List.Chain R a (compressGo a l) := by
  intro a l
  induction a, l using compressGo.induct with
  | case1 a => exact fun h => h
  | case2 a last => exact fun h => h
  | case3 a p q rest hc ih =>
    intro h
    obtain ⟨hap, h2⟩ := List.chain_cons.mp h
    obtain ⟨hpq, h3⟩ := List.chain_cons.mp h2
    rw [compressGo, if_pos hc]
    exact ih (List.chain_cons.mpr ⟨merge a p q hc hap hpq, h3⟩)
  | case4 a p q rest hc ih =>
    intro h
    obtain ⟨hap, h2⟩ := List.chain_cons.mp h
    rw [compressGo, if_neg hc]
    exact List.chain_cons.mpr ⟨hap, ih h2⟩

theorem compress_head (l : List Pt) : (compressCollinear l).head? = l.head? := by
  match l with
  | [] => rfl
  | [a] => rfl
  | [a, b] => rfl
  | p0 :: p1 :: p2 :: rest => rfl

theorem compress_getLast (l : List Pt) : (compressCollinear l).getLast? = l.getLast? := by
  match l with
  | [] => rfl
  | [a] => rfl
  | [a, b] => rfl
  | p0 :: p1 :: p2 :: rest =>
    show (p0 :: compressGo p0 (p1 :: p2 :: rest)).getLast? = _
    obtain ⟨x, xs, hx⟩ :=
      List.exists_cons_of_ne_nil (compressGo_ne_nil p0 (p1 :: p2 :: rest) (by simp))
    rw [hx, List.getLast?_cons_cons, ← hx, compressGo_getLast _ _ (by simp)]
    simp

theorem compress_sublist (l : List Pt) : (compressCollinear l).Sublist l := by
  match l with
  | [] => exact List.Sublist.refl _
  | [a] => exact List.Sublist.refl _
  | [a, b] => exact List.Sublist.refl _
  | p0 :: p1 :: p2 :: rest =>
    exact (compressGo_sublist p0 (p1 :: p2 :: rest)).cons₂ _

theorem compress_chain {R : Pt → Pt → Prop}
    (merge : ∀ a p q, collinear3 a p q → R a p → R p q → R a q)
    (l : List Pt) (h : List.Chain' R l) : List.Chain' R (compressCollinear l) := by
  match l with
  | [] => exact h
  | [a] => exact h
  | [a, b] => exact h
  | p0 :: p1 :: p2 :: rest =>
    show List.Chain R p0 (compressGo p0 (p1 :: p2 :: rest))
    exact compressGo_chain merge p0 (p1 :: p2 :: rest) h

theorem shareCoord_merge (a p q : Pt) (hc : collinear3 a p q)
    (h1 : shareCoord a p) (h2 : shareCoord p q) : shareCoord a q := by
  rcases hc with ⟨e1, e2⟩ | ⟨e1, e2⟩
  · exact Or.inl (e1.trans e2)
  · exact Or.inr (e1.trans e2)

theorem roundedShare_merge (a p q : Pt) (hc : collinear3 a p q)
    (h1 : roundedShare a p) (h2 : roundedShare p q) : roundedShare a q := by
  rcases hc with ⟨e1, e2⟩ | ⟨e1, e2⟩
  · exact Or.inl (congrArg roundSvg (e1.trans e2))
  · exact Or.inr (congrArg roundSvg (e1.trans e2))

theorem chain'_and {R S : Pt → Pt → Prop} :
    ∀ l : List Pt, List.Chain' R l → List.Chain' S l →
      List.Chain' (fun a b => R a b ∧ S a b) l := by
  intro l
  match l with
  | [] => exact fun _ _ => trivial
  | [a] => exact fun _ _ => List.chain'_singleton a
  | a :: b :: rest =>
    intro hr hs
    obtain ⟨hr1, hr2⟩ := List.chain'_cons.mp hr
    obtain ⟨hs1, hs2⟩ := List.chain'_cons.mp hs
    exact List.chain'_cons.mpr ⟨⟨hr1, hs1⟩, chain'_and (b :: rest) hr2 hs2⟩

theorem nodup_chain'_ne (l : List Pt) (h : l.Nodup) : List.Chain' (fun a b => a ≠ b) l :=
  List.Pairwise.chain' h

/-! One-pass compression removes all collinear triples only when no point
repeats: lemmas for C6. -/

theorem noTriple_compressGo_eq (a : Pt) (l : List Pt) (h : noTriple (a :: l)) :
    compressGo a l = l := by
  induction a, l using compressGo.induct with
  | case1 a => rfl
  | case2 a last => rfl
  | case3 a p q rest hc ih =>
    exact absurd hc h.1
  | case4 a p q rest hc ih =>
    rw [compressGo, if_neg hc, ih h.2]

theorem noTriple_compress_eq (l : List Pt) (h : noTriple l) : compressCollinear l = l := by
  match l with
  | [] => rfl
  | [a] => rfl
  | [a, b] => rfl
  | p0 :: p1 :: p2 :: rest =>
    show p0 :: compressGo p0 (p1 :: p2 :: rest) = _
    rw [noTriple_compressGo_eq p0 (p1 :: p2 :: rest) h]

theorem compressGo_head_cases :
    ∀ (rest : List Pt) (p q hd : Pt), p ∉ q :: rest →
      (compressGo p (q :: rest)).head? = some hd →
      hd = q ∨ (p.1 = q.1 ∧ p.1 = hd.1) ∨ (p.2 = q.2 ∧ p.2 = hd.2) := by
  intro rest
  induction rest with
  | nil =>
    intro p q hd _ h
    rw [compressGo] at h
    exact Or.inl (Option.some_inj.mp h).symm
  | cons q2 rest2 ih =>
    intro p q hd hnp h
    rw [compressGo] at h
    by_cases hc : collinear3 p q q2
    · rw [if_pos hc] at h
      have hnp2 : p ∉ q2 :: rest2 := fun hm => hnp (List.mem_cons_of_mem _ hm)
      rcases ih p q2 hd hnp2 h with h1 | h2 | h3
      · rcases hc with ⟨e1, e2⟩ | ⟨e1, e2⟩
        · exact Or.inr (Or.inl ⟨e1, by rw [h1, ← e2, ← e1]⟩)
        · exact Or.inr (Or.inr ⟨e1, by rw [h1, ← e2, ← e1]⟩)
      · rcases hc with ⟨e1, e2⟩ | ⟨e1, e2⟩
        · exact Or.inr (Or.inl ⟨e1, h2.2⟩)
        · refine absurd ?_ hnp2
          have hq2 : q2 = p := Prod.ext h2.1.symm (e1.trans e2).symm
          rw [← hq2]
          exact List.mem_cons_self _ _
      · rcases hc with ⟨e1, e2⟩ | ⟨e1, e2⟩
        · refine absurd ?_ hnp2
          have hq2 : q2 = p := Prod.ext (e1.trans e2).symm h3.1.symm
          rw [← hq2]
          exact List.mem_cons_self _ _
        · exact Or.inr (Or.inr ⟨e1, h3.2⟩)
    · rw [if_neg hc] at h
      exact Or.inl (Option.some_inj.mp h).symm

theorem noTriple_of_nodup (a : Pt) (l : List Pt) (h : (a :: l).Nodup) :
    noTriple (a :: compressGo a l) := by
  induction a, l using compressGo.induct with
  | case1 a => trivial
  | case2 a last => trivial
  | case3 a p q rest hc ih =>
    rw [compressGo, if_pos hc]
    refine ih ?_
    exact ((List.sublist_cons_self p (q :: rest)).cons₂ a).nodup h
  | case4 a p q rest hc ih =>
    rw [compressGo, if_neg hc]
    have hnd2 : (p :: q :: rest).Nodup := (List.nodup_cons.mp h).2
    have hX := ih hnd2
    have hpn : p ∉ q :: rest := (List.nodup_cons.mp hnd2).1
    cases hXl : compressGo p (q :: rest) with
    | nil => trivial
    | cons hd tl =>
      rw [hXl] at hX
      refine ⟨?_, hX⟩
      intro hcol
      have hhd := compressGo_head_cases rest p q hd hpn (by rw [hXl]; rfl)
      have hmem : hd ∈ q :: rest := by
        have hsub := (compressGo_sublist p (q :: rest)).subset
        rw [hXl] at hsub
        exact hsub (List.mem_cons_self hd tl)
      rcases hcol with ⟨e1, e2⟩ | ⟨e1, e2⟩
      · have hq1 : p.1 ≠ q.1 := fun hq => hc (Or.inl ⟨e1, hq⟩)
        rcases hhd with h1 | h2 | h3
        · exact hq1 (by rw [e2, h1])
        · exact hq1 h2.1
        · refine hpn ?_
          have hdp : hd = p := Prod.ext e2.symm h3.2.symm
          rwa [hdp] at hmem
      · have hq2 : p.2 ≠ q.2 := fun hq => hc (Or.inr ⟨e1, hq⟩)
        rcases hhd with h1 | h2 | h3
        · exact hq2 (by rw [e2, h1])
        · refine hpn ?_
          have hdp : hd = p := Prod.ext h2.2.symm e2.symm
          rwa [hdp] at hmem
        · exact hq2 h3.1

/-- **C6.** As stated the claim is false (see `c6_counterexample`): with a
repeated point the single left-to-right pass can keep a point whose two
kept neighbors later become collinear with it.  Amended: the simplifier
is idempotent on every sequence of pairwise-distinct points. -/
theorem c6_idempotent_on_nodup (l : List Pt) (h : l.Nodup) :
    compressCollinear (compressCollinear l) = compressCollinear l := by
  match l with
  | [] => rfl
  | [a] => rfl
  | [a, b] => rfl
  | p0 :: p1 :: p2 :: rest =>
    exact noTriple_compress_eq _ (noTriple_of_nodup p0 (p1 :: p2 :: rest) h)

/-- **C6 counterexample.** On the six-point sequence
`(0,0) (1,0) (1,1) (1,0) (3,0) (3,1)` (the point `(1,0)` occurs twice)
one compression pass returns `(0,0) (1,0) (3,0) (3,1)`, and a second
pass shortens that again: `compress (compress p) ≠ compress p`. -/
theorem c6_counterexample :
    compressCollinear (compressCollinear retraceList) ≠ compressCollinear retraceList ∧
    compressCollinear retraceList = [(0, 0), (1, 0), (3, 0), (3, 1)] ∧
    compressCollinear [((0 : ℚ), (0 : ℚ)), (1, 0), (3, 0), (3, 1)] = [(0, 0), (3, 0), (3, 1)] := by
  refine ⟨?_, ?_, ?_⟩ <;> with_unfolding_all decide

/-- **C6 witness.** The amended statement applied to a duplicate-free path. -/
theorem c6_witness :
    compressCollinear (compressCollinear [((0 : ℚ), (0 : ℚ)), (1, 0), (2, 1)]) =
      compressCollinear [((0 : ℚ), (0 : ℚ)), (1, 0), (2, 1)] :=
  c6_idempotent_on_nodup [((0 : ℚ), (0 : ℚ)), (1, 0), (2, 1)] (by with_unfolding_all decide)

/-! Search-loop lemmas. -/

theorem entryLe_refl (a : Entry) : entryLe a a :=
  Or.inr ⟨rfl, Or.inr ⟨rfl, le_refl _⟩⟩

theorem entryLe_total (a b : Entry) : entryLe a b ∨ entryLe b a := by
  unfold entryLe
  rcases lt_trichotomy a.1 b.1 with h | h | h
  · exact Or.inl (Or.inl h)
  · rcases lt_trichotomy a.2.1 b.2.1 with h2 | h2 | h2
    · exact Or.inl (Or.inr ⟨h, Or.inl h2⟩)
    · rcases le_total a.2.2 b.2.2 with h3 | h3
      · exact Or.inl (Or.inr ⟨h, Or.inr ⟨h2, h3⟩⟩)
      · exact Or.inr (Or.inr ⟨h.symm, Or.inr ⟨h2.symm, h3⟩⟩)
    · exact Or.inr (Or.inr ⟨h.symm, Or.inl h2⟩)
  · exact Or.inr (Or.inl h)

theorem entryLe_trans (a b c : Entry) (h1 : entryLe a b) (h2 : entryLe b c) : entryLe a c := by
  unfold entryLe at h1 h2 ⊢
  rcases h1 with h1 | ⟨e1, h1⟩ <;> rcases h2 with h2 | ⟨e2, h2⟩
  · exact Or.inl (h1.trans h2)
  · exact Or.inl (e2 ▸ h1)
  · exact Or.inl (e1 ▸ h2)
  · refine Or.inr ⟨e1.trans e2, ?_⟩
    rcases h1 with h1 | ⟨f1, h1⟩ <;> rcases h2 with h2 | ⟨f2, h2⟩
    · exact Or.inl (h1.trans h2)
    · exact Or.inl (f2 ▸ h1)
    · exact Or.inl (f1 ▸ h2)
    · exact Or.inr ⟨f1.trans f2, h1.trans h2⟩

theorem minEntry_fold_le (l : List Entry) :
    ∀ e : Entry, entryLe (l.foldl (fun m v => if entryLe v m ∧ ¬ entryLe m v then v else m) e) e ∧
      ∀ x ∈ l, entryLe (l.foldl (fun m v => if entryLe v m ∧ ¬ entryLe m v then v else m) e) x := by
  induction l with
  | nil => exact fun e => ⟨entryLe_refl e, by simp⟩
  | cons v rest ih =>
    intro e
    simp only [List.foldl_cons]
    by_cases hv : entryLe v e ∧ ¬ entryLe e v
    · rw [if_pos hv]
      obtain ⟨h1, h2⟩ := ih v
      refine ⟨entryLe_trans _ _ _ h1 hv.1, ?_⟩
      intro x hx
      rcases List.mem_cons.mp hx with rfl | hx
      · exact h1
      · exact h2 x hx
    · rw [if_neg hv]
      obtain ⟨h1, h2⟩ := ih e
      refine ⟨h1, ?_⟩
      intro x hx
      rcases List.mem_cons.mp hx with rfl | hx
      · have hev : entryLe e x := by
          by_cases hvc : entryLe e x
          · exact hvc
          · rcases entryLe_total x e with hv2 | hv2
            · exact absurd ⟨hv2, hvc⟩ hv
            · exact hv2
        exact entryLe_trans _ _ _ h1 hev
      · exact h2 x hx

theorem minEntry_fold_mem (l : List Entry) :
    ∀ e : Entry, (l.foldl (fun m v => if entryLe v m ∧ ¬ entryLe m v then v else m) e) ∈ e :: l := by
  induction l with
  | nil => intro e; simp
  | cons v rest ih =>
    intro e
    simp only [List.foldl_cons]
    by_cases hv : entryLe v e ∧ ¬ entryLe e v
    · rw [if_pos hv]
      rcases List.mem_cons.mp (ih v) with h | h
      · simp [h]
      · simp [List.mem_cons_of_mem _ h]
    · rw [if_neg hv]
      rcases List.mem_cons.mp (ih e) with h | h
      · simp [h]
      · simp [List.mem_cons_of_mem _ h]

theorem heappop_mem (h : List Entry) (m : Entry) (rest : List Entry)
    (hp : heappop h = some (m, rest)) : m ∈ h := by
  match h with
  | [] => exact absurd hp (by simp [heappop, minEntry])
  | e :: t =>
    have hm : minEntry (e :: t) = some m := by
      unfold heappop at hp
      cases hq : minEntry (e :: t) with
      | none => rw [hq] at hp; exact absurd hp (by simp)
      | some m2 =>
        rw [hq] at hp
        simp only [Option.some_inj, Prod.mk.injEq] at hp
        rw [hp.1]
    have := minEntry_fold_mem t e
    unfold minEntry at hm
    rw [Option.some_inj.symm.mp rfl] at hm
    exact (Option.some_inj.mp hm) ▸ this

theorem heappop_le (h : List Entry) (m : Entry) (rest : List Entry)
    (hp : heappop h = some (m, rest)) : ∀ e ∈ h, entryLe m e := by
  match h with
  | [] => exact absurd hp (by simp [heappop, minEntry])
  | e :: t =>
    have hm : minEntry (e :: t) = some m := by
      unfold heappop at hp
      cases hq : minEntry (e :: t) with
      | none => rw [hq] at hp; exact absurd hp (by simp)
      | some m2 =>
        rw [hq] at hp
        simp only [Option.some_inj, Prod.mk.injEq] at hp
        rw [hp.1]
    obtain ⟨h1, h2⟩ := minEntry_fold_le t e
    have hfold : t.foldl (fun m v => if entryLe v m ∧ ¬ entryLe m v then v else m) e = m := by
      unfold minEntry at hm
      exact Option.some_inj.mp hm
    intro x hx
    rcases List.mem_cons.mp hx with rfl | hx
    · exact hfold ▸ h1
    · exact hfold ▸ h2 x hx

theorem eraseEntry_subset (l : List Entry) (m : Entry) :
    ∀ e ∈ eraseEntry l m, e ∈ l := by
  induction l with
  | nil => simp [eraseEntry]
  | cons a rest ih =>
    intro e he
    unfold eraseEntry at he
    by_cases ha : a = m
    · rw [if_pos ha] at he
      exact List.mem_cons_of_mem _ he
    · rw [if_neg ha] at he
      rcases List.mem_cons.mp he with rfl | he
      · exact List.mem_cons_self _ _
      · exact List.mem_cons_of_mem _ (ih e he)

theorem lookupP_cons {β : Type} (k : Pt) (v : β) (l : List (Pt × β)) (q : Pt) :
    lookupP ((k, v) :: l) q = if k = q then some v else lookupP l q := rfl

theorem lookupP_cons_isSome {β : Type} (k : Pt) (v : β) (l : List (Pt × β)) (q : Pt)
    (h : (lookupP l q).isSome) : (lookupP ((k, v) :: l) q).isSome := by
  rw [lookupP_cons]
  by_cases hk : k = q
  · rw [if_pos hk]; rfl
  · rwa [if_neg hk]

theorem lookupP_isSome_mem {β : Type} :
    ∀ (l : List (Pt × β)) (k : Pt), (lookupP l k).isSome → k ∈ l.map Prod.fst := by
  intro l
  induction l with
  | nil => intro k h; exact absurd h (by simp [lookupP])
  | cons a rest ih =>
    intro k h
    rw [show a = (a.1, a.2) from rfl, lookupP_cons] at h
    by_cases hk : a.1 = k
    · simp [← hk]
    · rw [if_neg hk] at h
      simp only [List.map_cons, List.mem_cons]
      exact Or.inr (ih k h)

theorem manhattan_nonneg (a b : Pt) : 0 ≤ manhattan a b :=
  add_nonneg (abs_nonneg _) (abs_nonneg _)

theorem manhattan_self (a : Pt) : manhattan a a = 0 := by
  simp [manhattan]

theorem manhattan_pos (a b : Pt) (h : a ≠ b) : 0 < manhattan a b := by
  rcases (not_and_or.mp (fun hb => h (Prod.ext hb.1 hb.2))) with h1 | h1
  · exact add_pos_of_pos_of_nonneg (abs_pos.mpr (sub_ne_zero.mpr h1)) (abs_nonneg _)
  · exact add_pos_of_nonneg_of_pos (abs_nonneg _) (abs_pos.mpr (sub_ne_zero.mpr h1))

theorem relax_inv (edges : Pt → List Pt) (start goal current nxt : Pt) (st : SState)
    (inv : AInv edges start st)
    (hc : (lookupP st.gScore current).isSome)
    (hr : current = start ∨ (lookupP st.cameFrom current).isSome)
    (hn : nxt ∈ edges current) :
    AInv edges start (relax goal current st nxt) := by
  obtain ⟨gc, hgc⟩ := Option.isSome_iff_exists.mp hc
  unfold relax
  rw [hgc]
  simp only [Option.getD_some]
  set tentative := gc + manhattan current nxt with htdef
  by_cases hbetter :
      (match lookupP st.gScore nxt with
        | none => true
        | some gn => decide (tentative < gn)) = true
  all_goals rw [show ((match lookupP st.gScore nxt with
        | none => true
        | some gn => decide (tentative < gn)) : Bool) =
      (match lookupP st.gScore nxt with
        | none => true
        | some gn => decide (tentative < gn)) from rfl]
  case neg =>
    rw [Bool.not_eq_true] at hbetter
    rw [hbetter]
    simp only [Bool.false_eq_true, if_false]
    exact inv
  case pos =>
    rw [hbetter]
    simp only [if_true]
    -- facts about the successful update
    have hlt : ∀ gn, lookupP st.gScore nxt = some gn → tentative < gn := by
      intro gn hgn
      rw [hgn] at hbetter
      exact of_decide_eq_true hbetter
    have hcn : current ≠ nxt := by
      intro he
      have h2 : lookupP st.gScore nxt = some gc := he ▸ hgc
      have h3 := hlt gc h2
      rw [htdef, he, manhattan_self] at h3
      linarith
    have hman : 0 < manhattan current nxt := manhattan_pos _ _ hcn
    have htnn : 0 ≤ tentative := by
      have := inv.g_nonneg current gc hgc
      have := manhattan_nonneg current nxt
      rw [htdef]; linarith
    have hns : nxt ≠ start := by
      intro he
      have := hlt 0 (he ▸ inv.g_start)
      linarith
    -- the updated maps
    have hgs : ∀ q, lookupP ((nxt, tentative) :: st.gScore) q =
        if nxt = q then some tentative else lookupP st.gScore q := fun q => rfl
    have hcf : ∀ q, lookupP ((nxt, current) :: st.cameFrom) q =
        if nxt = q then some current else lookupP st.cameFrom q := fun q => rfl
    have core :
        AInv edges start ⟨st.heap, (nxt, current) :: st.cameFrom,
          (nxt, tentative) :: st.gScore, st.inOpen⟩ := by
      refine ⟨?_, ?_, ?_, ?_, ?_, ?_, ?_⟩
      · rw [hgs, if_neg hns]
        exact inv.g_start
      · intro k g hk
        rw [hgs] at hk
        by_cases hq : nxt = k
        · rw [if_pos hq] at hk
          rw [← Option.some_inj.mp hk]
          exact htnn
        · rw [if_neg hq] at hk
          exact inv.g_nonneg k g hk
      · rw [hcf, if_neg hns]
        exact inv.start_root
      · intro k v hk
        rw [hcf] at hk
        by_cases hq : nxt = k
        · rw [if_pos hq] at hk
          rw [← Option.some_inj.mp hk, ← hq]
          exact hn
        · rw [if_neg hq] at hk
          exact inv.parent_edge k v hk
      · intro k v hk
        rw [hcf] at hk
        by_cases hq : nxt = k
        · rw [if_pos hq] at hk
          rw [← Option.some_inj.mp hk]
          refine ⟨tentative, gc, ?_, ?_, ?_⟩
          · rw [hgs, if_pos hq]
          · rw [hgs, if_neg (fun he => hcn he.symm)]
            exact hgc
          · rw [htdef]; linarith
        · rw [if_neg hq] at hk
          obtain ⟨gk, gv, hgk, hgv, hvk⟩ := inv.parent_g k v hk
          by_cases hv : nxt = v
          · refine ⟨gk, tentative, ?_, ?_, ?_⟩
            · rw [hgs, if_neg hq]; exact hgk
            · rw [hgs, if_pos hv]
            · rw [← hv] at hgv
              exact lt_trans (hlt gv hgv) hvk
          · refine ⟨gk, gv, ?_, ?_, hvk⟩
            · rw [hgs, if_neg hq]; exact hgk
            · rw [hgs, if_neg hv]; exact hgv
      · intro k v hk
        rw [hcf] at hk
        by_cases hq : nxt = k
        · rw [if_pos hq] at hk
          rw [← Option.some_inj.mp hk]
          rcases hr with hr | hr
          · exact Or.inl hr
          · exact Or.inr (lookupP_cons_isSome _ _ _ _ hr)
        · rw [if_neg hq] at hk
          rcases inv.parent_closed k v hk with hv | hv
          · exact Or.inl hv
          · exact Or.inr (lookupP_cons_isSome _ _ _ _ hv)
      · intro e he
        obtain ⟨h1, h2⟩ := inv.heap_ok e he
        refine ⟨?_, lookupP_cons_isSome _ _ _ _ h2⟩
        rcases h1 with h1 | h1
        · exact Or.inl h1
        · exact Or.inr (lookupP_cons_isSome _ _ _ _ h1)
    by_cases hopen : nxt ∈ st.inOpen
    · rw [if_pos hopen]
      exact core
    · rw [if_neg hopen]
      refine ⟨core.g_start, core.g_nonneg, core.start_root, core.parent_edge,
        core.parent_g, core.parent_closed, ?_⟩
      intro e he
      rcases List.mem_append.mp he with he | he
      · exact core.heap_ok e he
      · rw [List.mem_singleton.mp he]
        refine ⟨Or.inr ?_, ?_⟩
        · rw [hcf, if_pos rfl]; rfl
        · rw [hgs, if_pos rfl]; rfl


theorem relax_gScore_mono (goal current nxt : Pt) (st : SState) (k : Pt)
    (h : (lookupP st.gScore k).isSome) :
    (lookupP (relax goal current st nxt).gScore k).isSome := by
  unfold relax
  dsimp only
  split_ifs with h1 h2
  · exact lookupP_cons_isSome _ _ _ _ h
  · exact lookupP_cons_isSome _ _ _ _ h
  · exact h

theorem relax_cameFrom_mono (goal current nxt : Pt) (st : SState) (k : Pt)
    (h : (lookupP st.cameFrom k).isSome) :
    (lookupP (relax goal current st nxt).cameFrom k).isSome := by
  unfold relax
  dsimp only
  split_ifs with h1 h2
  · exact lookupP_cons_isSome _ _ _ _ h
  · exact lookupP_cons_isSome _ _ _ _ h
  · exact h

theorem relax_reach_mono (goal current nxt : Pt) (st : SState) (k : Pt)
    (h : k = start ∨ (lookupP st.cameFrom k).isSome) :
    k = start ∨ (lookupP (relax goal current st nxt).cameFrom k).isSome := by
  rcases h with h | h
  · exact Or.inl h
  · exact Or.inr (relax_cameFrom_mono goal current nxt st k h)

theorem foldl_relax_inv (edges : Pt → List Pt) (start goal current : Pt) :
    ∀ (l : List Pt) (st : SState), AInv edges start st →
      (lookupP st.gScore current).isSome →
      (current = start ∨ (lookupP st.cameFrom current).isSome) →
      (∀ n ∈ l, n ∈ edges current) →
      AInv edges start (l.foldl (relax goal current) st) := by
  intro l
  induction l with
  | nil => exact fun st inv _ _ _ => inv
  | cons n rest ih =>
    intro st inv hc hr hmem
    simp only [List.foldl_cons]
    exact ih _
      (relax_inv edges start goal current n st inv hc hr (hmem n (List.mem_cons_self _ _)))
      (relax_gScore_mono _ _ _ _ _ hc)
      (relax_reach_mono _ _ _ _ _ hr)
      (fun x hx => hmem x (List.mem_cons_of_mem _ hx))

theorem pop_state_inv (edges : Pt → List Pt) (start : Pt) (st : SState)
    (heap2 : List Entry) (io : List Pt) (inv : AInv edges start st)
    (hsub : ∀ x ∈ heap2, x ∈ st.heap) :
    AInv edges start ⟨heap2, st.cameFrom, st.gScore, io⟩ :=
  ⟨inv.g_start, inv.g_nonneg, inv.start_root, inv.parent_edge, inv.parent_g,
    inv.parent_closed, fun x hx => inv.heap_ok x (hsub x hx)⟩

theorem init_inv (edges : Pt → List Pt) (start goal : Pt) :
    AInv edges start ⟨[(manhattan start goal, start)], [], [(start, 0)], [start]⟩ := by
  refine ⟨?_, ?_, ?_, ?_, ?_, ?_, ?_⟩
  · rw [lookupP_cons, if_pos rfl]
  · intro k g hk
    rw [lookupP_cons] at hk
    by_cases hs : start = k
    · rw [if_pos hs] at hk
      exact (Option.some_inj.mp hk) ▸ le_refl (0 : ℚ)
    · rw [if_neg hs] at hk
      exact absurd hk (by simp [lookupP])
  · rfl
  · intro k v hk; exact absurd hk (by simp [lookupP])
  · intro k v hk; exact absurd hk (by simp [lookupP])
  · intro k v hk; exact absurd hk (by simp [lookupP])
  · intro e he
    rw [List.mem_singleton.mp he]
    exact ⟨Or.inl rfl, by rw [lookupP_cons, if_pos rfl]; rfl⟩

theorem heappop_rest (h : List Entry) (m : Entry) (rest : List Entry)
    (hp : heappop h = some (m, rest)) : rest = eraseEntry h m := by
  unfold heappop at hp
  cases hq : minEntry h with
  | none => rw [hq] at hp; exact absurd hp (by simp)
  | some m2 =>
    rw [hq] at hp
    simp only [Option.some_inj, Prod.mk.injEq] at hp
    rw [← hp.2, hp.1]

theorem reachesIn_succ (cf : List (Pt × Pt)) (start : Pt) :
    ∀ (n : ℕ) (u : Pt), reachesIn cf start n u → reachesIn cf start (n + 1) u := by
  intro n
  induction n with
  | zero => intro u h; exact Or.inl h
  | succ n ih =>
    intro u h
    rcases h with h | ⟨v, hv, hr⟩
    · exact Or.inl h
    · exact Or.inr ⟨v, hv, ih v hr⟩

theorem not_reaches_chain (cf : List (Pt × Pt)) (g : List (Pt × ℚ)) (start : Pt)
    (hpg : ∀ k v, lookupP cf k = some v →
      ∃ gk gv, lookupP g k = some gk ∧ lookupP g v = some gv ∧ gv < gk)
    (hpc : ∀ k v, lookupP cf k = some v → v = start ∨ (lookupP cf v).isSome) :
    ∀ (f : ℕ) (u : Pt), (u = start ∨ (lookupP cf u).isSome) →
      ¬ reachesIn cf start f u →
      ∃ (l : List Pt) (gu : ℚ), l.length = f + 1 ∧ l.Nodup ∧
        (∀ w ∈ l, w ∈ cf.map Prod.fst) ∧ lookupP g u = some gu ∧
        (∀ w ∈ l, ∃ gw, lookupP g w = some gw ∧ gw ≤ gu) := by
  intro f
  induction f with
  | zero =>
    intro u hu hnr
    have hus : u ≠ start := fun he => hnr he
    have hk : (lookupP cf u).isSome := hu.resolve_left hus
    obtain ⟨v, hv⟩ := Option.isSome_iff_exists.mp hk
    obtain ⟨gu, gv, hgu, hgv, _⟩ := hpg u v hv
    refine ⟨[u], gu, rfl, List.nodup_singleton u, ?_, hgu, ?_⟩
    · intro w hw
      rw [List.mem_singleton.mp hw]
      exact lookupP_isSome_mem cf u hk
    · intro w hw
      rw [List.mem_singleton.mp hw]
      exact ⟨gu, hgu, le_refl gu⟩
  | succ f ih =>
    intro u hu hnr
    have hus : u ≠ start := fun he => hnr (Or.inl he)
    have hk : (lookupP cf u).isSome := hu.resolve_left hus
    obtain ⟨v, hv⟩ := Option.isSome_iff_exists.mp hk
    have hnrv : ¬ reachesIn cf start f v := fun hr => hnr (Or.inr ⟨v, hv, hr⟩)
    obtain ⟨l, gv, hlen, hnd, hkeys, hgv, hbound⟩ := ih v (hpc u v hv) hnrv
    obtain ⟨gu, gv2, hgu, hgv2, hlt⟩ := hpg u v hv
    have hgveq : gv2 = gv := by
      rw [hgv] at hgv2
      exact (Option.some_inj.mp hgv2).symm
    rw [hgveq] at hlt
    refine ⟨u :: l, gu, by simp [hlen], ?_, ?_, hgu, ?_⟩
    · rw [List.nodup_cons]
      refine ⟨?_, hnd⟩
      intro hmem
      obtain ⟨gw, hgw, hle⟩ := hbound u hmem
      rw [hgu] at hgw
      have hguw : gu = gw := Option.some_inj.mp hgw
      rw [← hguw] at hle
      linarith
    · intro w hw
      rcases List.mem_cons.mp hw with rfl | hw
      · exact lookupP_isSome_mem cf w hk
      · exact hkeys w hw
    · intro w hw
      rcases List.mem_cons.mp hw with rfl | hw
      · exact ⟨gu, hgu, le_refl _⟩
      · obtain ⟨gw, hgw, hle⟩ := hbound w hw
        exact ⟨gw, hgw, by linarith⟩

theorem reaches_of_inv (cf : List (Pt × Pt)) (g : List (Pt × ℚ)) (start : Pt)
    (hpg : ∀ k v, lookupP cf k = some v →
      ∃ gk gv, lookupP g k = some gk ∧ lookupP g v = some gv ∧ gv < gk)
    (hpc : ∀ k v, lookupP cf k = some v → v = start ∨ (lookupP cf v).isSome)
    (u : Pt) (hu : u = start ∨ (lookupP cf u).isSome) :
    reachesIn cf start cf.length u := by
  by_contra hnr
  obtain ⟨l, gu, hlen, hnd, hkeys, _, _⟩ :=
    not_reaches_chain cf g start hpg hpc cf.length u hu hnr
  have hle := (List.subperm_of_subset hnd hkeys).length_le
  rw [hlen, List.length_map] at hle
  omega

theorem reconstruct_suffix (cf : List (Pt × Pt)) :
    ∀ (f : ℕ) (u : Pt) (acc : List Pt),
      ∃ pre, reconstruct cf f u acc = pre ++ u :: acc := by
  intro f
  induction f with
  | zero => intro u acc; exact ⟨[], rfl⟩
  | succ f ih =>
    intro u acc
    rw [reconstruct]
    cases hl : lookupP cf u with
    | none => exact ⟨[], rfl⟩
    | some v =>
      obtain ⟨pre, hpre⟩ := ih v (u :: acc)
      refine ⟨pre ++ [v], ?_⟩
      show reconstruct cf f v (u :: acc) = _
      rw [hpre]
      simp

theorem reconstruct_head (cf : List (Pt × Pt)) (start : Pt)
    (hroot : lookupP cf start = none) :
    ∀ (f : ℕ) (u : Pt) (acc : List Pt), reachesIn cf start f u →
      (reconstruct cf f u acc).head? = some start := by
  intro f
  induction f with
  | zero =>
    intro u acc h
    rw [show u = start from h]
    rfl
  | succ f ih =>
    intro u acc h
    rw [reconstruct]
    cases hl : lookupP cf u with
    | none =>
      rcases h with h | ⟨v, hv, _⟩
      · rw [h]; rfl
      · rw [hl] at hv; exact absurd hv (by simp)
    | some v =>
      rcases h with h | ⟨v2, hv2, hr⟩
      · rw [h, hroot] at hl
        exact absurd hl (by simp)
      · rw [hl] at hv2
        have hveq : v = v2 := Option.some_inj.mp hv2
        rw [← hveq] at hr
        exact ih v (u :: acc) hr

theorem reconstruct_chain (cf : List (Pt × Pt)) (g : List (Pt × ℚ))
    (hpg : ∀ k v, lookupP cf k = some v →
      ∃ gk gv, lookupP g k = some gk ∧ lookupP g v = some gv ∧ gv < gk) :
    ∀ (f : ℕ) (u : Pt) (acc : List Pt),
      List.Chain' (fun a b => lookupP cf b = some a) (u :: acc) →
      List.Pairwise
        (fun a b => ∃ ga gb, lookupP g a = some ga ∧ lookupP g b = some gb ∧ ga < gb)
        (u :: acc) →
      List.Chain' (fun a b => lookupP cf b = some a) (reconstruct cf f u acc) ∧
      List.Pairwise
        (fun a b => ∃ ga gb, lookupP g a = some ga ∧ lookupP g b = some gb ∧ ga < gb)
        (reconstruct cf f u acc) := by
  intro f
  induction f with
  | zero => exact fun u acc h1 h2 => ⟨h1, h2⟩
  | succ f ih =>
    intro u acc h1 h2
    rw [reconstruct]
    cases hl : lookupP cf u with
    | none => exact ⟨h1, h2⟩
    | some v =>
      refine ih v (u :: acc) (List.chain'_cons.mpr ⟨hl, h1⟩) ?_
      rw [List.pairwise_cons]
      obtain ⟨gu, gv, hgu, hgv, hlt⟩ := hpg u v hl
      refine ⟨?_, h2⟩
      intro w hw
      rcases List.mem_cons.mp hw with rfl | hw
      · exact ⟨gv, gu, hgv, hgu, hlt⟩
      · obtain ⟨gu2, gw, hgu2, hgw, hlt2⟩ := (List.pairwise_cons.mp h2).1 w hw
        have hgueq : gu2 = gu := by
          rw [hgu] at hgu2
          exact (Option.some_inj.mp hgu2).symm
        rw [hgueq] at hlt2
        exact ⟨gv, gw, hgv, hgw, by linarith⟩

theorem aStarLoop_spec (edges : Pt → List Pt) (start goal : Pt) :
    ∀ (fuel : ℕ) (st : SState) (p : List Pt), AInv edges start st →
      aStarLoop edges goal fuel st = some (some p) →
      p.head? = some start ∧ p.getLast? = some goal ∧
      List.Chain' (fun a b => b ∈ edges a) p ∧ p.Nodup := by
  intro fuel
  induction fuel with
  | zero =>
    intro st p _ h
    exact absurd h (by simp [aStarLoop])
  | succ fuel ih =>
    intro st p inv h
    rw [aStarLoop] at h
    split at h
    · exact absurd h (by simp)
    · rename_i e heap2 hpop
      split at h
      · rename_i hgoal
        have hp : reconstruct st.cameFrom (st.cameFrom.length + 1) e.2 [] = p :=
          Option.some_inj.mp (Option.some_inj.mp h)
        have hmem := heappop_mem st.heap e heap2 hpop
        obtain ⟨hreach, hg⟩ := inv.heap_ok e hmem
        rw [hgoal] at hreach
        have hri : reachesIn st.cameFrom start (st.cameFrom.length + 1) goal :=
          reachesIn_succ _ _ _ _
            (reaches_of_inv st.cameFrom st.gScore start inv.parent_g inv.parent_closed
              goal hreach)
        obtain ⟨hchain, hpair⟩ :=
          reconstruct_chain st.cameFrom st.gScore inv.parent_g
            (st.cameFrom.length + 1) goal [] (List.chain'_singleton _)
            (List.pairwise_singleton _ _)
        rw [hgoal] at hp
        rw [← hp]
        refine ⟨?_, ?_, ?_, ?_⟩
        · exact reconstruct_head st.cameFrom start inv.start_root _ goal [] hri
        · obtain ⟨pre, hpre⟩ := reconstruct_suffix st.cameFrom (st.cameFrom.length + 1) goal []
          rw [hpre]
          exact List.getLast?_concat _
        · exact List.Chain'.imp (fun a b hab => inv.parent_edge b a hab) hchain
        · refine List.Pairwise.imp ?_ hpair
          intro a b hab
          obtain ⟨ga, gb, hga, hgb, hlt⟩ := hab
          intro he
          rw [he, hgb] at hga
          rw [Option.some_inj.mp hga] at hlt
          exact lt_irrefl _ hlt
      · rename_i hgoal
        have hmem := heappop_mem st.heap e heap2 hpop
        obtain ⟨hreach, hg⟩ := inv.heap_ok e hmem
        have hrest := heappop_rest st.heap e heap2 hpop
        refine ih _ p ?_ h
        refine foldl_relax_inv edges start goal e.2 (edges e.2) _ ?_ hg hreach (fun x hx => hx)
        refine pop_state_inv edges start st heap2 _ inv ?_
        rw [hrest]
        exact eraseEntry_subset st.heap e

theorem aStar_spec (fuel : ℕ) (start goal : Pt) (nodes : List Pt)
    (edges : Pt → List Pt) (p : List Pt)
    (h : aStar fuel start goal nodes edges = some (some p)) :
    p.head? = some start ∧ p.getLast? = some goal ∧
    List.Chain' (fun a b => b ∈ edges a) p ∧ p.Nodup :=
  aStarLoop_spec edges start goal fuel _ p (init_inv edges start goal) h

/-! Geometry of clear segments. -/

theorem between_split (a b c x : ℚ) (h1 : min a c ≤ x) (h2 : x ≤ max a c) :
    (min a b ≤ x ∧ x ≤ max a b) ∨ (min b c ≤ x ∧ x ≤ max b c) := by
  rw [min_le_iff] at h1
  rw [le_max_iff] at h2
  rcases le_total x b with hxb | hxb
  · rcases h1 with h1 | h1
    · exact Or.inl ⟨min_le_iff.mpr (Or.inl h1), le_max_iff.mpr (Or.inr hxb)⟩
    · exact Or.inr ⟨min_le_iff.mpr (Or.inr h1), le_max_iff.mpr (Or.inl hxb)⟩
  · rcases h2 with h2 | h2
    · exact Or.inl ⟨min_le_iff.mpr (Or.inr hxb), le_max_iff.mpr (Or.inl h2)⟩
    · exact Or.inr ⟨min_le_iff.mpr (Or.inl hxb), le_max_iff.mpr (Or.inr h2)⟩

theorem onSegment_vert (a b p : Pt) (hx : a.1 = b.1) :
    onSegment a b p ↔ p.1 = a.1 ∧ min a.2 b.2 ≤ p.2 ∧ p.2 ≤ max a.2 b.2 := by
  constructor
  · rintro ⟨t, ht0, ht1, hpx, hpy⟩
    refine ⟨by rw [hpx, ← hx]; ring, ?_, ?_⟩
    · rcases le_total a.2 b.2 with hab | hab
      · rw [min_eq_left hab, hpy]; nlinarith
      · rw [min_eq_right hab, hpy]; nlinarith
    · rcases le_total a.2 b.2 with hab | hab
      · rw [max_eq_right hab, hpy]; nlinarith
      · rw [max_eq_left hab, hpy]; nlinarith
  · rintro ⟨hpx, hlo, hhi⟩
    by_cases hd : b.2 = a.2
    · refine ⟨0, le_refl 0, zero_le_one, by rw [hpx, ← hx]; ring, ?_⟩
      rw [hd] at hlo hhi
      simp only [min_self, max_self] at hlo hhi
      have hp2 : p.2 = a.2 := le_antisymm hhi hlo
      rw [hp2]; ring
    · have hdne : b.2 - a.2 ≠ 0 := sub_ne_zero.mpr hd
      refine ⟨(p.2 - a.2) / (b.2 - a.2), ?_, ?_, by rw [hpx, ← hx]; ring, ?_⟩
      · rcases lt_or_gt_of_ne hdne with hneg | hpos
        · have hmin : min a.2 b.2 = b.2 := min_eq_right (by linarith)
          rw [hmin] at hlo
          have hmax : max a.2 b.2 = a.2 := max_eq_left (by linarith)
          rw [hmax] at hhi
          exact div_nonneg_of_nonpos (by linarith) (le_of_lt hneg)
        · have hmin : min a.2 b.2 = a.2 := min_eq_left (by linarith)
          rw [hmin] at hlo
          exact div_nonneg (by linarith) (le_of_lt hpos)
      · rcases lt_or_gt_of_ne hdne with hneg | hpos
        · have hmin : min a.2 b.2 = b.2 := min_eq_right (by linarith)
          rw [hmin] at hlo
          rw [div_le_one_of_neg hneg]
          linarith
        · have hmax : max a.2 b.2 = b.2 := max_eq_right (by linarith)
          rw [hmax] at hhi
          rw [div_le_one hpos]
          linarith
      · rw [div_mul_cancel₀ _ hdne]
        ring

theorem onSegment_horiz (a b p : Pt) (hy : a.2 = b.2) :
    onSegment a b p ↔ p.2 = a.2 ∧ min a.1 b.1 ≤ p.1 ∧ p.1 ≤ max a.1 b.1 := by
  constructor
  · rintro ⟨t, ht0, ht1, hpx, hpy⟩
    refine ⟨by rw [hpy, ← hy]; ring, ?_, ?_⟩
    · rcases le_total a.1 b.1 with hab | hab
      · rw [min_eq_left hab, hpx]; nlinarith
      · rw [min_eq_right hab, hpx]; nlinarith
    · rcases le_total a.1 b.1 with hab | hab
      · rw [max_eq_right hab, hpx]; nlinarith
      · rw [max_eq_left hab, hpx]; nlinarith
  · rintro ⟨hpy, hlo, hhi⟩
    by_cases hd : b.1 = a.1
    · refine ⟨0, le_refl 0, zero_le_one, ?_, by rw [hpy, ← hy]; ring⟩
      rw [hd] at hlo hhi
      simp only [min_self, max_self] at hlo hhi
      have hp1 : p.1 = a.1 := le_antisymm hhi hlo
      rw [hp1]; ring
    · have hdne : b.1 - a.1 ≠ 0 := sub_ne_zero.mpr hd
      refine ⟨(p.1 - a.1) / (b.1 - a.1), ?_, ?_, ?_, by rw [hpy, ← hy]; ring⟩
      · rcases lt_or_gt_of_ne hdne with hneg | hpos
        · have hmin : min a.1 b.1 = b.1 := min_eq_right (by linarith)
          rw [hmin] at hlo
          have hmax : max a.1 b.1 = a.1 := max_eq_left (by linarith)
          rw [hmax] at hhi
          exact div_nonneg_of_nonpos (by linarith) (le_of_lt hneg)
        · have hmin : min a.1 b.1 = a.1 := min_eq_left (by linarith)
          rw [hmin] at hlo
          exact div_nonneg (by linarith) (le_of_lt hpos)
      · rcases lt_or_gt_of_ne hdne with hneg | hpos
        · have hmin : min a.1 b.1 = b.1 := min_eq_right (by linarith)
          rw [hmin] at hlo
          rw [div_le_one_of_neg hneg]
          linarith
        · have hmax : max a.1 b.1 = b.1 := max_eq_right (by linarith)
          rw [hmax] at hhi
          rw [div_le_one hpos]
          linarith
      · rw [div_mul_cancel₀ _ hdne]
        ring

theorem onSegment_symm (a b p : Pt) (h : onSegment a b p) : onSegment b a p := by
  obtain ⟨t, ht0, ht1, hpx, hpy⟩ := h
  refine ⟨1 - t, by linarith, by linarith, ?_, ?_⟩
  · rw [hpx]; ring
  · rw [hpy]; ring

theorem segSafe_symm (obstacles : List Rect) (a b : Pt) (h : segSafe obstacles a b) :
    segSafe obstacles b a :=
  fun p hp r hr => h p (onSegment_symm b a p hp) r hr

theorem segmentClear_safe (a b : Pt) (obstacles : List Rect)
    (hclear : segmentClear a b obstacles = true)
    (hshare : a.1 = b.1 ∨ a.2 = b.2) (hne : a ≠ b) : segSafe obstacles a b := by
  intro p hp r hr hin
  obtain ⟨hin1, hin2, hin3, hin4⟩ := hin
  rcases hshare with hx | hy
  · have hyne : a.2 ≠ b.2 := fun h2 => hne (Prod.ext hx h2)
    obtain ⟨hpx, hlo, hhi⟩ := (onSegment_vert a b p hx).mp hp
    unfold segmentClear at hclear
    rw [if_neg (by simp [hx]), if_pos hx, List.all_eq_true] at hclear
    have hcr := hclear r hr
    rw [hpx] at hin1 hin2
    rw [if_pos ⟨hin1, hin2⟩] at hcr
    have hno := of_decide_eq_true hcr
    refine hno (max_lt (lt_min ?_ ?_) (lt_min ?_ ?_))
    · exact min_lt_max.mpr hyne
    · exact lt_of_le_of_lt hlo hin4
    · exact lt_of_lt_of_le hin3 hhi
    · exact lt_trans hin3 hin4
  · have hxne : a.1 ≠ b.1 := fun h2 => hne (Prod.ext h2 hy)
    obtain ⟨hpy, hlo, hhi⟩ := (onSegment_horiz a b p hy).mp hp
    unfold segmentClear at hclear
    rw [if_neg (by simp [hy]), if_neg hxne, List.all_eq_true] at hclear
    have hcr := hclear r hr
    rw [hpy] at hin3 hin4
    rw [if_pos ⟨hin3, hin4⟩] at hcr
    have hno := of_decide_eq_true hcr
    refine hno (max_lt (lt_min ?_ ?_) (lt_min ?_ ?_))
    · exact min_lt_max.mpr hxne
    · exact lt_of_le_of_lt hlo hin2
    · exact lt_of_lt_of_le hin1 hhi
    · exact lt_trans hin1 hin2

theorem segSafe_merge (obstacles : List Rect) (a p q : Pt) (hc : collinear3 a p q)
    (h1 : segSafe obstacles a p) (h2 : segSafe obstacles p q) : segSafe obstacles a q := by
  intro x hx r hr hin
  rcases hc with ⟨e1, e2⟩ | ⟨e1, e2⟩
  · obtain ⟨hx1, hlo, hhi⟩ := (onSegment_vert a q x (e1.trans e2)).mp hx
    rcases between_split a.2 p.2 q.2 x.2 hlo hhi with ⟨hl, hh⟩ | ⟨hl, hh⟩
    · exact h1 x ((onSegment_vert a p x e1).mpr ⟨hx1, hl, hh⟩) r hr hin
    · exact h2 x ((onSegment_vert p q x e2).mpr ⟨by rw [hx1, e1], hl, hh⟩) r hr hin
  · obtain ⟨hx2, hlo, hhi⟩ := (onSegment_horiz a q x (e1.trans e2)).mp hx
    rcases between_split a.1 p.1 q.1 x.1 hlo hhi with ⟨hl, hh⟩ | ⟨hl, hh⟩
    · exact h1 x ((onSegment_horiz a p x e1).mpr ⟨hx2, hl, hh⟩) r hr hin
    · exact h2 x ((onSegment_horiz p q x e2).mpr ⟨by rw [hx2, e1], hl, hh⟩) r hr hin

theorem mem_of_getLastP : ∀ (l : List ℚ) (a : ℚ), l.getLast? = some a → a ∈ l := by
  intro l
  induction l with
  | nil => intro a h; exact absurd h (by simp)
  | cons x t ih =>
    intro a h
    match t with
    | [] =>
      rw [show ([x] : List ℚ).getLast? = some x from rfl] at h
      rw [← Option.some_inj.mp h]
      exact List.mem_singleton_self x
    | y :: t2 =>
      rw [List.getLast?_cons_cons] at h
      exact List.mem_cons_of_mem _ (ih a h)

theorem mem_of_headP (l : List ℚ) (a : ℚ) (h : l.head? = some a) : a ∈ l := by
  match l with
  | [] => exact absurd h (by simp)
  | x :: t =>
    rw [show (x :: t).head? = some x from rfl] at h
    rw [← Option.some_inj.mp h]
    exact List.mem_cons_self x t

theorem routeEdges_mem (xs ys : List ℚ) (obstacles : List Rect) (start goal n m : Pt)
    (h : m ∈ routeEdges xs ys obstacles start goal n) :
    (m.1 = n.1 ∨ m.2 = n.2) ∧ m ≠ n ∧
      (segmentClear m n obstacles = true ∨ segmentClear n m obstacles = true) := by
  unfold routeEdges at h
  split at h
  case isFalse => exact absurd h (by simp)
  case isTrue =>
    rcases List.mem_append.mp h with h | h
    · unfold colNbrs at h
      rcases List.mem_append.mp h with h | h
      all_goals split at h
      case h_2 => exact absurd h (by simp)
      case h_1 y2 hlast =>
        split at h
        case isFalse => exact absurd h (by simp)
        case isTrue hcl =>
          rw [List.mem_singleton.mp h]
          have hy2 : y2 < n.2 := by
            have hm := mem_of_getLastP _ _ hlast
            exact of_decide_eq_true (List.mem_filter.mp hm).2
          refine ⟨Or.inl rfl, ?_, Or.inl hcl⟩
          intro he
          rw [Prod.ext_iff] at he
          exact absurd he.2 (ne_of_lt hy2)
      case h_1 y2 hhead =>
        split at h
        case isFalse => exact absurd h (by simp)
        case isTrue hcl =>
          rw [List.mem_singleton.mp h]
          have hy2 : n.2 < y2 := by
            have hm := mem_of_headP _ _ hhead
            exact of_decide_eq_true (List.mem_filter.mp hm).2
          refine ⟨Or.inl rfl, ?_, Or.inr hcl⟩
          intro he
          rw [Prod.ext_iff] at he
          exact absurd he.2 (ne_of_gt hy2)
      case h_2 => exact absurd h (by simp)
    · unfold rowNbrs at h
      rcases List.mem_append.mp h with h | h
      all_goals split at h
      case h_2 => exact absurd h (by simp)
      case h_1 x2 hlast =>
        split at h
        case isFalse => exact absurd h (by simp)
        case isTrue hcl =>
          rw [List.mem_singleton.mp h]
          have hx2 : x2 < n.1 := by
            have hm := mem_of_getLastP _ _ hlast
            exact of_decide_eq_true (List.mem_filter.mp hm).2
          refine ⟨Or.inr rfl, ?_, Or.inl hcl⟩
          intro he
          rw [Prod.ext_iff] at he
          exact absurd he.1 (ne_of_lt hx2)
      case h_1 x2 hhead =>
        split at h
        case isFalse => exact absurd h (by simp)
        case isTrue hcl =>
          rw [List.mem_singleton.mp h]
          have hx2 : n.1 < x2 := by
            have hm := mem_of_headP _ _ hhead
            exact of_decide_eq_true (List.mem_filter.mp hm).2
          refine ⟨Or.inr rfl, ?_, Or.inr hcl⟩
          intro he
          rw [Prod.ext_iff] at he
          exact absurd he.1 (ne_of_gt hx2)
      case h_2 => exact absurd h (by simp)

/-! Claim theorems for the grid router. -/

/-- **C1.** Every path found by the grid router's search over the
constructed grid graph — and still after collinear compression — has no
segment point strictly inside the open interior of any padded obstacle
(every rectangle except the two endpoints, expanded by `pad`). -/
theorem c1_grid_path_avoids_padded_obstacles
    (fuel : ℕ) (all_table_rects : List (String × Rect)) (src_id dst_id : String)
    (pad margin : ℚ) (start goal : Pt) (nodes : List Pt) (p : List Pt)
    (h : aStar fuel start goal nodes
        (routeEdges
          (routeXs (routeObstacles all_table_rects src_id dst_id pad)
            all_table_rects start goal margin)
          (routeYs (routeObstacles all_table_rects src_id dst_id pad)
            all_table_rects start goal margin)
          (routeObstacles all_table_rects src_id dst_id pad) start goal) =
      some (some p)) :
    List.Chain' (segSafe (routeObstacles all_table_rects src_id dst_id pad)) p ∧
    List.Chain' (segSafe (routeObstacles all_table_rects src_id dst_id pad))
      (compressCollinear p) := by
  obtain ⟨_, _, hchain, hnodup⟩ := aStar_spec fuel start goal nodes _ p h
  have hcomb := chain'_and p hchain (nodup_chain'_ne p hnodup)
  have hsafe : List.Chain' (segSafe (routeObstacles all_table_rects src_id dst_id pad)) p := by
    refine List.Chain'.imp ?_ hcomb
    intro a b hab
    obtain ⟨hmem, hne2⟩ := hab
    obtain ⟨hsh, hne3, hclear⟩ := routeEdges_mem _ _ _ start goal a b hmem
    rcases hclear with hc | hc
    · exact segSafe_symm _ _ _ (segmentClear_safe b a _ hc hsh hne3)
    · refine segmentClear_safe a b _ hc ?_ (fun he => hne3 he.symm)
      rcases hsh with hs | hs
      · exact Or.inl hs.symm
      · exact Or.inr hs.symm
  exact ⟨hsafe, compress_chain (segSafe_merge _) p hsafe⟩

/-- **C1 witness.** A concrete successful grid route (two rectangles, no
obstacle): the search returns the straight path `(10,5) -> (100,5)` and
the theorem applies to it. -/
theorem c1_witness :
    List.Chain' (segSafe (routeObstacles demoRectsOpen "s" "d" 8))
      [((10 : ℚ), 5), (100, 5)] ∧
    List.Chain' (segSafe (routeObstacles demoRectsOpen "s" "d" 8))
      (compressCollinear [((10 : ℚ), 5), (100, 5)]) :=
  c1_grid_path_avoids_padded_obstacles 20 demoRectsOpen "s" "d" 8 14 (10, 5) (100, 5) [] _
    (by with_unfolding_all decide)

/-- **C2.** When the search reports no path (`some none`, Python `None`),
the grid router returns exactly the direct orthogonal router's result for
the same source and destination rectangles and the same margin, and that
result exists (no error): the no-path case is a normal outcome. -/
theorem c2_no_path_falls_back_to_direct
    (fuel : ℕ) (src_rect dst_rect : Rect) (all_table_rects : List (String × Rect))
    (src_id dst_id : String) (pad margin : ℚ) (start goal : Pt)
    (h : aStar fuel start goal
        (routeNodes
          (routeXs (routeObstacles all_table_rects src_id dst_id pad)
            all_table_rects start goal margin)
          (routeYs (routeObstacles all_table_rects src_id dst_id pad)
            all_table_rects start goal margin)
          (routeObstacles all_table_rects src_id dst_id pad))
        (routeEdges
          (routeXs (routeObstacles all_table_rects src_id dst_id pad)
            all_table_rects start goal margin)
          (routeYs (routeObstacles all_table_rects src_id dst_id pad)
            all_table_rects start goal margin)
          (routeObstacles all_table_rects src_id dst_id pad) start goal) = some none) :
    routeCore fuel src_rect dst_rect all_table_rects src_id dst_id pad margin start goal =
      orthogonalPath src_rect dst_rect margin ∧
    (routeCore fuel src_rect dst_rect all_table_rects src_id dst_id pad margin
      start goal).isSome := by
  have heq : routeCore fuel src_rect dst_rect all_table_rects src_id dst_id pad margin
      start goal = orthogonalPath src_rect dst_rect margin := by
    simp only [routeCore]
    rw [h]
  refine ⟨heq, ?_⟩
  rw [heq]
  exact orthogonalPath_isSome src_rect dst_rect margin

/-- **C2 witness.** With a third rectangle whose padded expansion swallows
the start anchor, the search exhausts its frontier and the router returns
the direct router's string. -/
theorem c2_witness :
    routeCore 20 ⟨0, 0, 10, 10⟩ ⟨100, 0, 10, 10⟩ demoRectsBlocked "s" "d" 8 14
        (10, 5) (100, 5) =
      orthogonalPath ⟨0, 0, 10, 10⟩ ⟨100, 0, 10, 10⟩ 14 ∧
    (routeCore 20 ⟨0, 0, 10, 10⟩ ⟨100, 0, 10, 10⟩ demoRectsBlocked "s" "d" 8 14
      (10, 5) (100, 5)).isSome :=
  c2_no_path_falls_back_to_direct 20 ⟨0, 0, 10, 10⟩ ⟨100, 0, 10, 10⟩ demoRectsBlocked
    "s" "d" 8 14 (10, 5) (100, 5) (by with_unfolding_all decide)

/-- **C4.** As stated the claim is false (see `c4_counterexample`): in
exact pre-serialization coordinates the direct router can emit a
zero-length segment (coincident rounded anchors) and even a diagonal one
(anchor y-coordinates that differ but round equal).  Amended: every
consecutive pair shares a coordinate after rounding; compression
preserves exact axis-alignment; and the grid router's compressed path
does satisfy the claim exactly — consecutive points share exactly one
coordinate. -/
theorem c4_axis_alignment :
    (∀ (src dst : Rect) (margin : ℚ) (pts : List Pt),
        orthPoints src dst margin = some pts → List.Chain' roundedShare pts) ∧
    (∀ l : List Pt, List.Chain' shareCoord l →
        List.Chain' shareCoord (compressCollinear l)) ∧
    (∀ (fuel : ℕ) (start goal : Pt) (nodes : List Pt) (xs ys : List ℚ)
        (obstacles : List Rect) (p : List Pt),
        aStar fuel start goal nodes (routeEdges xs ys obstacles start goal) =
          some (some p) →
        List.Chain' shareExactlyOne (compressCollinear p)) := by
  refine ⟨?_, ?_, ?_⟩
  · intro src dst margin pts h
    rcases pickSides_cases src dst with hp | hp | hp | hp
    · rw [orthPoints_rl src dst margin hp, Option.some_inj] at h
      by_cases hr : roundSvg src.cy = roundSvg dst.cy
      · rw [if_pos hr] at h
        rw [← h]
        exact List.chain'_pair.mpr (Or.inr hr)
      · rw [if_neg hr] at h
        rw [← h]
        exact List.chain'_cons.mpr ⟨Or.inr rfl, List.chain'_cons.mpr
          ⟨Or.inl rfl, List.chain'_pair.mpr (Or.inr rfl)⟩⟩
    · rw [orthPoints_lr src dst margin hp, Option.some_inj] at h
      by_cases hr : roundSvg src.cy = roundSvg dst.cy
      · rw [if_pos hr] at h
        rw [← h]
        exact List.chain'_pair.mpr (Or.inr hr)
      · rw [if_neg hr] at h
        rw [← h]
        exact List.chain'_cons.mpr ⟨Or.inr rfl, List.chain'_cons.mpr
          ⟨Or.inl rfl, List.chain'_pair.mpr (Or.inr rfl)⟩⟩
    · rw [orthPoints_bt src dst margin hp, Option.some_inj] at h
      by_cases hr : roundSvg src.cx = roundSvg dst.cx
      · rw [if_pos hr] at h
        rw [← h]
        exact List.chain'_pair.mpr (Or.inl hr)
      · rw [if_neg hr] at h
        rw [← h]
        exact List.chain'_cons.mpr ⟨Or.inl rfl, List.chain'_cons.mpr
          ⟨Or.inr rfl, List.chain'_pair.mpr (Or.inl rfl)⟩⟩
    · rw [orthPoints_tb src dst margin hp, Option.some_inj] at h
      by_cases hr : roundSvg src.cx = roundSvg dst.cx
      · rw [if_pos hr] at h
        rw [← h]
        exact List.chain'_pair.mpr (Or.inl hr)
      · rw [if_neg hr] at h
        rw [← h]
        exact List.chain'_cons.mpr ⟨Or.inl rfl, List.chain'_cons.mpr
          ⟨Or.inr rfl, List.chain'_pair.mpr (Or.inl rfl)⟩⟩
  · exact fun l h => compress_chain shareCoord_merge l h
  · intro fuel start goal nodes xs ys obstacles p h
    obtain ⟨_, _, hchain, hnodup⟩ := aStar_spec fuel start goal nodes _ p h
    have hshare : List.Chain' shareCoord p := by
      refine List.Chain'.imp ?_ hchain
      intro a b hmem
      obtain ⟨hsh, _, _⟩ := routeEdges_mem _ _ _ start goal a b hmem
      rcases hsh with hs | hs
      · exact Or.inl hs.symm
      · exact Or.inr hs.symm
    have hcshare := compress_chain shareCoord_merge p hshare
    have hcnodup : (compressCollinear p).Nodup :=
      List.Nodup.sublist (compress_sublist p) hnodup
    have hcomb := chain'_and (compressCollinear p) hcshare
      (nodup_chain'_ne (compressCollinear p) hcnodup)
    refine List.Chain'.imp ?_ hcomb
    intro a b hab
    obtain ⟨hsh, hne⟩ := hab
    rcases hsh with hs | hs
    · exact Or.inl ⟨hs, fun h2 => hne (Prod.ext hs h2)⟩
    · exact Or.inr ⟨fun h1 => hne (Prod.ext h1 hs), hs⟩

/-- **C4 counterexample.** Touching rectangles make the direct router emit
the zero-length segment `(10,5) -> (10,5)` (sharing both coordinates);
rectangles whose anchors have different y that round equal make it emit
the diagonal segment `(10,5) -> (100,27/5)` (sharing neither). -/
theorem c4_counterexample :
    orthPoints ⟨0, 0, 10, 10⟩ ⟨10, 0, 10, 10⟩ 14 =
      some [((10 : ℚ), 5), (10, 5)] ∧
    ¬ shareExactlyOne ((10 : ℚ), 5) ((10 : ℚ), 5) ∧
    orthPoints ⟨0, 0, 10, 10⟩ ⟨100, 2/5, 10, 10⟩ 14 =
      some [((10 : ℚ), 5), (100, 27/5)] ∧
    ¬ shareCoord ((10 : ℚ), (5 : ℚ)) ((100 : ℚ), 27/5) := by
  refine ⟨?_, ?_, ?_, ?_⟩ <;> with_unfolding_all decide

/-- **C4 witness.** The amended statement at concrete inputs: the rounded
chain on the `Z` path, compression preserving axis-alignment, and the
exactly-one property of a concrete grid-router path. -/
theorem c4_witness :
    List.Chain' roundedShare [((10 : ℚ), 5), (55, 5), (55, 25), (100, 25)] ∧
    List.Chain' shareCoord (compressCollinear [((0 : ℚ), (0 : ℚ)), (1, 0), (2, 0)]) ∧
    List.Chain' shareExactlyOne (compressCollinear [((10 : ℚ), 5), (100, 5)]) :=
  ⟨c4_axis_alignment.1 ⟨0, 0, 10, 10⟩ ⟨100, 20, 10, 10⟩ 14 _ (by with_unfolding_all decide),
   c4_axis_alignment.2.1 [((0 : ℚ), (0 : ℚ)), (1, 0), (2, 0)]
     (List.chain'_cons.mpr ⟨Or.inr rfl, List.chain'_pair.mpr (Or.inr rfl)⟩),
   c4_axis_alignment.2.2 20 (10, 5) (100, 5) []
     (routeXs (routeObstacles demoRectsOpen "s" "d" 8) demoRectsOpen (10, 5) (100, 5) 14)
     (routeYs (routeObstacles demoRectsOpen "s" "d" 8) demoRectsOpen (10, 5) (100, 5) 14)
     (routeObstacles demoRectsOpen "s" "d" 8) _ (by with_unfolding_all decide)⟩

/-- **C5.** Endpoint fidelity: a successful search returns a path whose
first point is the start anchor and whose last point is the goal anchor
(exactly, hence also within rounding), compression never changes the
first or last point of any sequence, and the direct router's point list
begins at the source anchor and ends at the destination anchor. -/
theorem c5_endpoint_fidelity :
    (∀ (fuel : ℕ) (start goal : Pt) (nodes : List Pt) (edges : Pt → List Pt)
        (p : List Pt), aStar fuel start goal nodes edges = some (some p) →
        p.head? = some start ∧ p.getLast? = some goal ∧
        (compressCollinear p).head? = some start ∧
        (compressCollinear p).getLast? = some goal) ∧
    (∀ l : List Pt, (compressCollinear l).head? = l.head? ∧
        (compressCollinear l).getLast? = l.getLast?) ∧
    (∀ (src dst : Rect) (margin : ℚ) (pts : List Pt) (s g : Pt),
        anchor src (pickSides src dst).1 = some s →
        anchor dst (pickSides src dst).2 = some g →
        orthPoints src dst margin = some pts →
        pts.head? = some s ∧ pts.getLast? = some g) := by
  refine ⟨?_, fun l => ⟨compress_head l, compress_getLast l⟩, ?_⟩
  · intro fuel start goal nodes edges p h
    obtain ⟨h1, h2, _, _⟩ := aStar_spec fuel start goal nodes edges p h
    exact ⟨h1, h2, (compress_head p).trans h1, (compress_getLast p).trans h2⟩
  · intro src dst margin pts s g ha hb h
    rcases pickSides_cases src dst with hp | hp | hp | hp
    · rw [hp, anchor_right] at ha
      rw [hp, anchor_left] at hb
      rw [orthPoints_rl src dst margin hp, Option.some_inj] at h
      rw [← Option.some_inj.mp ha, ← Option.some_inj.mp hb, ← h]
      by_cases hr : roundSvg src.cy = roundSvg dst.cy
      · rw [if_pos hr]; exact ⟨rfl, rfl⟩
      · rw [if_neg hr]; exact ⟨rfl, rfl⟩
    · rw [hp, anchor_left] at ha
      rw [hp, anchor_right] at hb
      rw [orthPoints_lr src dst margin hp, Option.some_inj] at h
      rw [← Option.some_inj.mp ha, ← Option.some_inj.mp hb, ← h]
      by_cases hr : roundSvg src.cy = roundSvg dst.cy
      · rw [if_pos hr]; exact ⟨rfl, rfl⟩
      · rw [if_neg hr]; exact ⟨rfl, rfl⟩
    · rw [hp, anchor_bottom] at ha
      rw [hp, anchor_top] at hb
      rw [orthPoints_bt src dst margin hp, Option.some_inj] at h
      rw [← Option.some_inj.mp ha, ← Option.some_inj.mp hb, ← h]
      by_cases hr : roundSvg src.cx = roundSvg dst.cx
      · rw [if_pos hr]; exact ⟨rfl, rfl⟩
      · rw [if_neg hr]; exact ⟨rfl, rfl⟩
    · rw [hp, anchor_top] at ha
      rw [hp, anchor_bottom] at hb
      rw [orthPoints_tb src dst margin hp, Option.some_inj] at h
      rw [← Option.some_inj.mp ha, ← Option.some_inj.mp hb, ← h]
      by_cases hr : roundSvg src.cx = roundSvg dst.cx
      · rw [if_pos hr]; exact ⟨rfl, rfl⟩
      · rw [if_neg hr]; exact ⟨rfl, rfl⟩

/-- **C5 witness.** A two-node graph where the search succeeds; the path
begins at the start node and ends at the goal node, before and after
compression. -/
theorem c5_witness :
    ([((0 : ℚ), (0 : ℚ)), ((9 : ℚ), (0 : ℚ))] : List Pt).head? = some (0, 0) ∧
    ([((0 : ℚ), (0 : ℚ)), ((9 : ℚ), (0 : ℚ))] : List Pt).getLast? = some (9, 0) ∧
    (compressCollinear [((0 : ℚ), (0 : ℚ)), ((9 : ℚ), (0 : ℚ))]).head? = some (0, 0) ∧
    (compressCollinear [((0 : ℚ), (0 : ℚ)), ((9 : ℚ), (0 : ℚ))]).getLast? = some (9, 0) :=
  c5_endpoint_fidelity.1 2 (0, 0) (9, 0) [] lineEdges _ (by with_unfolding_all decide)

/-- **C7.** As stated the claim is false (see `c7_counterexample`): the
frontier is a `heapq` of `(f, node)` tuples compared by Python tuple
order, so ties in `f` are broken by the lexicographic order of the node
coordinates, not by insertion order.  Amended: the popped entry is always
a minimum of the frontier under that lexicographic tuple order. -/
theorem c7_pop_is_lex_min (heap : List Entry) (m : Entry) (rest : List Entry)
    (e : Entry) (hp : heappop heap = some (m, rest)) (he : e ∈ heap) : entryLe m e :=
  heappop_le heap m rest hp e he

/-- **C7 counterexample.** In the diamond graph `tieEdges` the start
relaxes `(1,0)` first and `(0,1)` second, both entering the frontier with
the same f-value 2; insertion-order tie-breaking would expand `(1,0)`
first and return the path through it, but the search returns the path
through `(0,1)`, the lexicographically smaller node. -/
theorem c7_counterexample :
    tieEdges (0, 0) = [(1, 0), (0, 1)] ∧
    (1 : ℚ) + manhattan (1, 0) (1, 1) = 1 + manhattan (0, 1) (1, 1) ∧
    aStar 10 (0, 0) (1, 1) [] tieEdges = some (some [(0, 0), (0, 1), (1, 1)]) ∧
    [((0 : ℚ), (0 : ℚ)), (0, 1), (1, 1)] ≠ [((0 : ℚ), (0 : ℚ)), (1, 0), (1, 1)] := by
  refine ⟨?_, ?_, ?_, ?_⟩ <;> with_unfolding_all decide

/-- **C7 witness.** The amended statement on a concrete two-entry frontier
holding equal f-values: the later-inserted, lexicographically smaller
entry is popped, and it is indeed minimal. -/
theorem c7_witness :
    entryLe ((2 : ℚ), ((0 : ℚ), (1 : ℚ))) ((2 : ℚ), ((1 : ℚ), (0 : ℚ))) :=
  c7_pop_is_lex_min [((2 : ℚ), ((1 : ℚ), (0 : ℚ))), ((2 : ℚ), ((0 : ℚ), (1 : ℚ)))]
    ((2 : ℚ), ((0 : ℚ), (1 : ℚ))) [((2 : ℚ), ((1 : ℚ), (0 : ℚ)))]
    ((2 : ℚ), ((1 : ℚ), (0 : ℚ))) (by with_unfolding_all decide)
    (by with_unfolding_all decide)

/-- **C10.** When the start anchor equals the goal anchor the search pops
the start immediately and returns the single-point path `[start]`, and
the grid router serializes it as a single move command with no line
commands. -/
theorem c10_trivial_path (fuel : ℕ) (src_rect dst_rect : Rect)
    (all_table_rects : List (String × Rect)) (src_id dst_id : String)
    (pad margin : ℚ) (start : Pt) (nodes : List Pt) (edges : Pt → List Pt) :
    aStar (fuel + 1) start start nodes edges = some (some [start]) ∧
    routeCore (fuel + 1) src_rect dst_rect all_table_rects src_id dst_id pad margin
      start start = some (renderPath [start]) ∧
    renderPath [start] =
      "M" ++ toString (roundSvg start.1) ++ " " ++ toString (roundSvg start.2) := by
  have ha : ∀ (nodes2 : List Pt) (edges2 : Pt → List Pt),
      aStar (fuel + 1) start start nodes2 edges2 = some (some [start]) := by
    intro nodes2 edges2
    unfold aStar aStarLoop
    simp [heappop, minEntry, eraseEntry, reconstruct, lookupP]
  refine ⟨ha nodes edges, ?_, rfl⟩
  simp only [routeCore]
  rw [ha _ _]
  rfl

end GenPaths
